import Mathlib

/-!
Verification of the reusable core of an Advent-of-Code 2024 repository:
the arena-based trie with DP arrangement counting, and the round-robin
shard-and-solve helper (both from src/utils.rs).

Machine integers (usize, u64) are modelled as Nat: none of the verified
code can overflow u64/usize on the inputs considered, and Rust panics
(out-of-bounds indexing, Option::unwrap on None) are modelled by an
Option result, where none means the original code panics.
-/

namespace Utils

/-- Checked list update: models Rust indexed assignment `l[i] = v`,
which panics when `i` is out of bounds. -/
def setChecked {α : Type} (l : List α) (i : Nat) (v : α) : Option (List α) :=
  if i < l.length then some (l.set i v) else none

/-- One node of the trie arena: `entries` is the fixed-size array
`[Option<usize>; N]` of child handles, `terminal` the end-of-word flag. -/
structure TrieEntry (N : Nat) where
  entries : List (Option Nat)
  terminal : Bool
deriving DecidableEq

/-- `TrieEntry::default()`: no children, not terminal. -/
def TrieEntry.default (N : Nat) : TrieEntry N :=
  ⟨List.replicate N none, false⟩

/-- The trie: an arena of nodes addressed by dense integer handles;
node 0 is the root. Words are represented by the dense indices
(`TrieElement::index()`) of their symbols, so a word is a `List Nat`. -/
structure Trie (N : Nat) where
  trie_entries : List (TrieEntry N)
deriving DecidableEq

/-- `Trie::default()`: the arena holds just the root node. -/
def Trie.default (N : Nat) : Trie N :=
  ⟨[TrieEntry.default N]⟩

/-- The loop body of `Trie::add_word`: walk/extend the arena from node
`last` along the word, returning the updated arena and the node reached.
`none` models a panic (symbol index out of `[0, N)`, or an arena handle
out of bounds). -/
def addWordLoop (N : Nat) : List (TrieEntry N) → Nat → List Nat →
    Option (List (TrieEntry N) × Nat)
  | tes, last, [] => some (tes, last)
  | tes, last, c :: cs => do
    let te ← tes[last]?
    let slot ← te.entries[c]?
    let tes2 ←
      match slot with
      | none => do
        let newEntries ← setChecked te.entries c (some tes.length)
        let tes1 ← setChecked tes last ⟨newEntries, te.terminal⟩
        pure (tes1 ++ [TrieEntry.default N])
      | some _ => pure tes
    let te2 ← tes2[last]?
    let slot2 ← te2.entries[c]?
    match slot2 with
    | none => none
    | some nxt => addWordLoop N tes2 nxt cs

/-- `Trie::add_word`: walk/extend the arena from the root along `word`,
then mark the node reached as terminal. -/
def Trie.add_word {N : Nat} (t : Trie N) (word : List Nat) : Option (Trie N) := do
  let (tes, last) ← addWordLoop N t.trie_entries 0 word
  let te ← tes[last]?
  let tes2 ← setChecked tes last ⟨te.entries, true⟩
  pure ⟨tes2⟩

/-- `FromIterator for Trie`: start from `Trie::default()` and add each
word in turn. -/
def Trie.from_iter (N : Nat) (words : List (List Nat)) : Option (Trie N) :=
  words.foldlM (fun t w => t.add_word w) (Trie.default N)

/-- Inner loop of `count_all_word_arrangements`: starting at word index
`start`, walk the trie (current node `last`) over indices `e`,
`e+1`, ..., adding `reach[start]` into `reach[e+1]` whenever the node
reached after consuming `word[e]` is terminal, and stopping at the first
missing child. -/
def innerLoop {N : Nat} (t : Trie N) (word : List Nat) (start : Nat) :
    Nat → Nat → List Nat → Option (List Nat) := fun last e reach =>
  if _h : e < word.length then do
    let c ← word[e]?
    let te ← t.trie_entries[last]?
    let slot ← te.entries[c]?
    match slot with
    | some cur => do
      let te2 ← t.trie_entries[cur]?
      let reach2 ←
        if te2.terminal then do
          let sv ← reach[start]?
          let prev ← reach[e+1]?
          setChecked reach (e+1) (prev + sv)
        else pure reach
      innerLoop t word start cur (e+1) reach2
    | none => pure reach
  else pure reach
termination_by last e reach => word.length - e
decreasing_by simp_wf; omega

/-- Outer loop of `count_all_word_arrangements`: iterate `start` over all
positions of the word, skipping positions whose reach count is 0. -/
def outerLoop {N : Nat} (t : Trie N) (word : List Nat) :
    Nat → List Nat → Option (List Nat) := fun start reach =>
  if _h : start < word.length then do
    let sv ← reach[start]?
    let reach2 ←
      if sv == 0 then pure reach else innerLoop t word start 0 start reach
    outerLoop t word (start + 1) reach2
  else pure reach
termination_by start reach => word.length - start
decreasing_by simp_wf; omega

/-- `Trie::count_all_word_arrangements`: the DP over
`count_arrangements_reaching_index` (here `reach`), returning
`reach[word.len()]`. -/
def Trie.count_all_word_arrangements {N : Nat} (t : Trie N) (word : List Nat) :
    Option Nat := do
  let reach0 := List.replicate (word.length + 1) 0
  let reach1 ← setChecked reach0 0 1
  let reachF ← outerLoop t word 0 reach1
  reachF[word.length]?

/-! Clean (total) walk semantics of a trie, used to state what set of
words a trie holds. Out-of-range accesses default to `none`/`false`;
separate lemmas show the checked code agrees on well-formed tries. -/

/-- The child handle stored in slot `c` of node `k` (defaulting: an
out-of-range access yields `none`). -/
def slotOf {N : Nat} (tes : List (TrieEntry N)) (k c : Nat) : Option Nat :=
  ((tes.getD k (TrieEntry.default N)).entries).getD c none

/-- The terminal flag of node `k` (defaulting). -/
def termOf {N : Nat} (tes : List (TrieEntry N)) (k : Nat) : Bool :=
  (tes.getD k (TrieEntry.default N)).terminal

/-- Walk the arena from node `i` consuming a word; `none` when some
child is missing. -/
def walkL {N : Nat} (tes : List (TrieEntry N)) (i : Nat) : List Nat → Option Nat
  | [] => some i
  | c :: cs =>
    match slotOf tes i c with
    | some j => walkL tes j cs
    | none => none

/-- A word is in the trie iff walking it from the root lands on a
terminal node. -/
def inTrieB {N : Nat} (t : Trie N) (w : List Nat) : Bool :=
  match walkL t.trie_entries 0 w with
  | some j => termOf t.trie_entries j
  | none => false

/-- The arena invariant maintained by construction: the root exists,
every node's entry array has length `N`, every stored child handle is a
valid non-root handle, and no two slots store the same handle (each
node has at most one incoming edge). -/
structure WFA (N : Nat) (tes : List (TrieEntry N)) : Prop where
  root : 0 < tes.length
  elen : ∀ k, k < tes.length → (tes.getD k (TrieEntry.default N)).entries.length = N
  child_bounds : ∀ k c v, slotOf tes k c = some v → v < tes.length ∧ 0 < v
  indeg : ∀ k₁ c₁ k₂ c₂ v, slotOf tes k₁ c₁ = some v →
    slotOf tes k₂ c₂ = some v → k₁ = k₂ ∧ c₁ = c₂

/-- How an arena grows during `add_word`: old nodes keep their terminal
flags, old slots change only from `none` to a fresh handle, and fresh
nodes are non-terminal with slots pointing only at fresh handles. -/
structure ArenaExtends (N : Nat) (tes tes2 : List (TrieEntry N)) : Prop where
  le : tes.length ≤ tes2.length
  term_old : ∀ k, k < tes.length → termOf tes2 k = termOf tes k
  slot_old : ∀ k c, k < tes.length →
    slotOf tes2 k c = slotOf tes k c ∨
    (slotOf tes k c = none ∧ ∃ v, tes.length ≤ v ∧ slotOf tes2 k c = some v)
  term_fresh : ∀ k, tes.length ≤ k → termOf tes2 k = false
  slot_fresh : ∀ k c, tes.length ≤ k →
    slotOf tes2 k c = none ∨ ∃ v, tes.length ≤ v ∧ slotOf tes2 k c = some v

/-- The day-19 stripe alphabet (`w`, `u`, `b`, `r`, `g`). -/
inductive Stripe where
  | white
  | blue
  | black
  | red
  | green
deriving DecidableEq

/-- `TrieElement::index()` for `Stripe`: the enum discriminant. -/
def Stripe.index : Stripe → Nat
  | .white => 0
  | .blue => 1
  | .black => 2
  | .red => 3
  | .green => 4

/-! The sharding helper `shard_and_solve_concurrently`. The detected
parallelism is a parameter `P` (a `NonZeroUsize` in the source, hence
`0 < P` in the theorems); the concurrent fan-out/fan-in is modelled by
the list of per-shard reducer results in shard-index order (the real
channel yields exactly these values, in completion order). -/

/-- One step of the sharding loop: route the indexed item `p` into
shard `p.1 % P`. -/
def shardStep {I : Type} (P : Nat) (shards : List (List I)) (p : Nat × I) :
    List (List I) :=
  shards.set (p.1 % P) (shards.getD (p.1 % P) [] ++ [p.2])

/-- The shard buffers built by `shard_and_solve_concurrently`: `P` empty
buffers, then item `i` is pushed onto shard `i % P`. -/
def shardInputs {I : Type} (P : Nat) (inputs : List I) : List (List I) :=
  inputs.enum.foldl (shardStep P) (List.replicate P [])

/-- `shard_and_solve_concurrently`: one reducer invocation per shard,
each receiving its shard and a clone of `capture`. -/
def shard_and_solve_concurrently {I C O : Type} (P : Nat) (inputs : List I)
    (capture : C) (f : List I → C → O) : List O :=
  (shardInputs P inputs).map (fun shard => f shard capture)

/-- Specification form of the shard buffers: shard `j` holds, in input
order, exactly the items whose index is congruent to `j` mod `P`. -/
def shardSpec {I : Type} (P : Nat) (inputs : List I) : List (List I) :=
  (List.range P).map (fun j =>
    (inputs.enum.filter (fun p => p.1 % P = j)).map Prod.snd)

/-! The brute-force arrangement-count oracle. -/

/-- Modelled from the spec: the reference brute-force recursive count
over all partitions of the target into patterns, used as a cross-check
oracle in the repository's (absent) tests. The empty target has exactly
one partition; otherwise sum, over every nonempty prefix of the target
that is a pattern, the count for the remaining suffix. Memoization is
omitted as it does not change the value. -/
def brute_force_count (patterns : List (List Nat)) (target : List Nat) : Nat :=
  if target = [] then 1
  else ((List.range target.length).map (fun l =>
    if target.take (l + 1) ∈ patterns then
      brute_force_count patterns (target.drop (l + 1))
    else 0)).sum
termination_by target.length
decreasing_by
  simp_wf
  cases target with
  | nil => simp_all
  | cons a as => simp

/-- All partitions of `w` into nonempty blocks satisfying `B`,
enumerated by first block. -/
def tilingsF (B : List Nat → Bool) (w : List Nat) : List (List (List Nat)) :=
  if _h : w = [] then [[]]
  else (List.range w.length).flatMap (fun l =>
    if B (w.take (l + 1)) then
      (tilingsF B (w.drop (l + 1))).map (fun tl => w.take (l + 1) :: tl)
    else [])
termination_by w.length
decreasing_by
  simp_wf
  cases w with
  | nil => simp_all
  | cons a as => simp

/-- All partitions of `w` into nonempty blocks satisfying `B`,
enumerated by last block. -/
def tilingsL (B : List Nat → Bool) (w : List Nat) : List (List (List Nat)) :=
  if _h : w = [] then [[]]
  else (List.range w.length).flatMap (fun s =>
    if hs : s < w.length then
      (if B (w.drop s) then
        (tilingsL B (w.take s)).map (fun tl => tl ++ [w.drop s])
      else [])
    else [])
termination_by w.length
decreasing_by
  simp_wf
  omega

/-- The last-block partition count, the value the DP computes. -/
def fcB (B : List Nat → Bool) (w : List Nat) : Nat :=
  (tilingsL B w).length

/-! Access helper lemmas for the arena. -/

theorem getElem?_eq_some_getD {α : Type} (l : List α) (k : Nat) (d : α)
    (h : k < l.length) : l[k]? = some (l.getD k d) := by
  rw [List.getElem?_eq_getElem h, List.getD_eq_getElem l d h]

theorem getD_set_self' {α : Type} (l : List α) (i : Nat) (v d : α)
    (h : i < l.length) : (l.set i v).getD i d = v := by
  rw [List.getD_eq_getElem _ d (by simpa using h), List.getElem_set_self]

theorem getD_set_ne' {α : Type} (l : List α) (i j : Nat) (v d : α)
    (h : i ≠ j) : (l.set i v).getD j d = l.getD j d := by
  by_cases hj : j < l.length
  · rw [List.getD_eq_getElem _ d (by simpa using hj), List.getElem_set_ne h,
      List.getD_eq_getElem l d hj]
  · rw [List.getD_eq_default _ d (by simpa using Nat.le_of_not_lt hj),
      List.getD_eq_default l d (Nat.le_of_not_lt hj)]

theorem getD_default_entry {N : Nat} (c : Nat) :
    ((TrieEntry.default N).entries).getD c none = none := by
  rw [TrieEntry.default]
  by_cases hc : c < N
  · rw [List.getD_eq_getElem _ _ (by simpa using hc)]
    simp
  · rw [List.getD_eq_default]
    simpa using Nat.le_of_not_lt hc

theorem slotOf_of_le {N : Nat} (tes : List (TrieEntry N)) (k c : Nat)
    (h : tes.length ≤ k) : slotOf tes k c = none := by
  rw [slotOf, List.getD_eq_default _ _ h, getD_default_entry]

theorem termOf_of_le {N : Nat} (tes : List (TrieEntry N)) (k : Nat)
    (h : tes.length ≤ k) : termOf tes k = false := by
  rw [termOf, List.getD_eq_default _ _ h, TrieEntry.default]

theorem slotOf_append_left {N : Nat} (tes tes' : List (TrieEntry N)) (k c : Nat)
    (h : k < tes.length) : slotOf (tes ++ tes') k c = slotOf tes k c := by
  rw [slotOf, slotOf, List.getD_append _ _ _ _ h]

theorem termOf_append_left {N : Nat} (tes tes' : List (TrieEntry N)) (k : Nat)
    (h : k < tes.length) : termOf (tes ++ tes') k = termOf tes k := by
  rw [termOf, termOf, List.getD_append _ _ _ _ h]


/-! Equation lemmas and combinatorics of the tiling enumerations. -/

theorem tilingsF_nil (B : List Nat → Bool) : tilingsF B [] = [[]] := by
  rw [tilingsF]
  simp

theorem tilingsF_ne (B : List Nat → Bool) (w : List Nat) (hw : w ≠ []) :
    tilingsF B w = (List.range w.length).flatMap (fun l =>
      if B (w.take (l + 1)) then
        (tilingsF B (w.drop (l + 1))).map (fun tl => w.take (l + 1) :: tl)
      else []) := by
  rw [tilingsF, dif_neg hw]

theorem tilingsL_nil (B : List Nat → Bool) : tilingsL B [] = [[]] := by
  rw [tilingsL]
  simp

theorem tilingsL_ne (B : List Nat → Bool) (w : List Nat) (hw : w ≠ []) :
    tilingsL B w = (List.range w.length).flatMap (fun s =>
      if B (w.drop s) then
        (tilingsL B (w.take s)).map (fun tl => tl ++ [w.drop s])
      else []) := by
  rw [tilingsL, dif_neg hw]
  apply List.flatMap_congr
  intro s hs
  rw [dif_pos (List.mem_range.mp hs)]

theorem length_flatMap' {α β : Type} (l : List α) (f : α → List β) :
    (l.flatMap f).length = (l.map (fun a => (f a).length)).sum := by
  induction l with
  | nil => rfl
  | cons a l ih => simp [List.flatMap_cons, ih]

/-- Membership in the first-block enumeration: exactly the partitions of
`w` into nonempty blocks satisfying `B`. -/
theorem mem_tilingsF (B : List Nat → Bool) :
    ∀ (n : Nat) (w : List Nat), w.length ≤ n → ∀ l : List (List Nat),
      (l ∈ tilingsF B w ↔ l.flatten = w ∧ ∀ p ∈ l, B p = true ∧ p ≠ []) := by
  intro n
  induction n with
  | zero =>
    intro w hw l
    have hnil : w = [] := List.length_eq_zero.mp (Nat.le_zero.mp hw)
    subst hnil
    rw [tilingsF_nil]
    constructor
    · intro hmem
      have : l = [] := by simpa using hmem
      subst this
      exact ⟨rfl, by simp⟩
    · rintro ⟨hjoin, hall⟩
      cases l with
      | nil => simp
      | cons p tl =>
        have hp := hall p (List.mem_cons_self _ _)
        have : p ++ tl.flatten = [] := by simpa using hjoin
        exact absurd (List.append_eq_nil.mp this).1 hp.2
  | succ n ih =>
    intro w hw l
    by_cases hnil : w = []
    · subst hnil
      rw [tilingsF_nil]
      constructor
      · intro hmem
        have : l = [] := by simpa using hmem
        subst this
        exact ⟨rfl, by simp⟩
      · rintro ⟨hjoin, hall⟩
        cases l with
        | nil => simp
        | cons p tl =>
          have hp := hall p (List.mem_cons_self _ _)
          have : p ++ tl.flatten = [] := by simpa using hjoin
          exact absurd (List.append_eq_nil.mp this).1 hp.2
    · rw [tilingsF_ne B w hnil]
      have hwpos : 0 < w.length := List.length_pos.mpr hnil
      constructor
      · intro hmem
        obtain ⟨a, ha, hmem2⟩ := List.mem_flatMap.mp hmem
        have halt : a < w.length := List.mem_range.mp ha
        by_cases hB : B (w.take (a + 1))
        · rw [if_pos hB] at hmem2
          obtain ⟨tl, htl, rfl⟩ := List.mem_map.mp hmem2
          have hdrop : (w.drop (a + 1)).length ≤ n := by
            rw [List.length_drop]; omega
          obtain ⟨hjoin, hall⟩ := (ih (w.drop (a + 1)) hdrop tl).mp htl
          refine ⟨?_, ?_⟩
          · rw [List.flatten_cons, hjoin, List.take_append_drop]
          · intro p hp
            rcases List.mem_cons.mp hp with hhd | htail
            · subst hhd
              refine ⟨hB, ?_⟩
              intro hcon
              rcases List.take_eq_nil_iff.mp hcon with h | h
              · exact absurd h (Nat.succ_ne_zero a)
              · exact hnil h
            · exact hall p htail
        · rw [if_neg hB] at hmem2
          exact absurd hmem2 (List.not_mem_nil l)
      · rintro ⟨hjoin, hall⟩
        cases l with
        | nil => exact absurd hjoin.symm hnil
        | cons p tl =>
          have hp := hall p (List.mem_cons_self _ _)
          have hw_eq : p ++ tl.flatten = w := by simpa using hjoin
          have hp1 : 1 ≤ p.length := by
            cases p with
            | nil => exact absurd rfl hp.2
            | cons c cs => simp
          have hple : p.length ≤ w.length := by
            rw [← hw_eq, List.length_append]; omega
          apply List.mem_flatMap.mpr
          refine ⟨p.length - 1, List.mem_range.mpr (by omega), ?_⟩
          have hsucc : p.length - 1 + 1 = p.length := by omega
          have htake : w.take (p.length - 1 + 1) = p := by
            rw [hsucc, ← hw_eq, List.take_left]
          have hdropw : w.drop (p.length - 1 + 1) = tl.flatten := by
            rw [hsucc, ← hw_eq, List.drop_left]
          rw [htake, if_pos hp.1]
          apply List.mem_map.mpr
          refine ⟨tl, ?_, rfl⟩
          apply (ih (w.drop (p.length - 1 + 1)) (by rw [List.length_drop]; omega) tl).mpr
          exact ⟨hdropw.symm, fun q hq => hall q (List.mem_cons_of_mem _ hq)⟩

/-- Membership in the last-block enumeration: the same partitions. -/
theorem mem_tilingsL (B : List Nat → Bool) :
    ∀ (n : Nat) (w : List Nat), w.length ≤ n → ∀ l : List (List Nat),
      (l ∈ tilingsL B w ↔ l.flatten = w ∧ ∀ p ∈ l, B p = true ∧ p ≠ []) := by
  intro n
  induction n with
  | zero =>
    intro w hw l
    have hnil : w = [] := List.length_eq_zero.mp (Nat.le_zero.mp hw)
    subst hnil
    rw [tilingsL_nil]
    constructor
    · intro hmem
      have : l = [] := by simpa using hmem
      subst this
      exact ⟨rfl, by simp⟩
    · rintro ⟨hjoin, hall⟩
      cases l with
      | nil => simp
      | cons p tl =>
        have hp := hall p (List.mem_cons_self _ _)
        have : p ++ tl.flatten = [] := by simpa using hjoin
        exact absurd (List.append_eq_nil.mp this).1 hp.2
  | succ n ih =>
    intro w hw l
    by_cases hnil : w = []
    · subst hnil
      rw [tilingsL_nil]
      constructor
      · intro hmem
        have : l = [] := by simpa using hmem
        subst this
        exact ⟨rfl, by simp⟩
      · rintro ⟨hjoin, hall⟩
        cases l with
        | nil => simp
        | cons p tl =>
          have hp := hall p (List.mem_cons_self _ _)
          have : p ++ tl.flatten = [] := by simpa using hjoin
          exact absurd (List.append_eq_nil.mp this).1 hp.2
    · rw [tilingsL_ne B w hnil]
      have hwpos : 0 < w.length := List.length_pos.mpr hnil
      constructor
      · intro hmem
        obtain ⟨s, hs, hmem2⟩ := List.mem_flatMap.mp hmem
        have hslt : s < w.length := List.mem_range.mp hs
        by_cases hB : B (w.drop s)
        · rw [if_pos hB] at hmem2
          obtain ⟨tl, htl, rfl⟩ := List.mem_map.mp hmem2
          have htake : (w.take s).length ≤ n := by
            rw [List.length_take]; omega
          obtain ⟨hjoin, hall⟩ := (ih (w.take s) htake tl).mp htl
          refine ⟨?_, ?_⟩
          · rw [List.flatten_append, hjoin, List.flatten_cons, List.flatten_nil,
              List.append_nil, List.take_append_drop]
          · intro p hp
            rcases List.mem_append.mp hp with htail | hhd
            · exact hall p htail
            · have : p = w.drop s := by simpa using hhd
              subst this
              refine ⟨hB, ?_⟩
              intro hcon
              have := congrArg List.length hcon
              simp [List.length_drop] at this
              omega
        · rw [if_neg hB] at hmem2
          exact absurd hmem2 (List.not_mem_nil l)
      · rintro ⟨hjoin, hall⟩
        rcases List.eq_nil_or_concat l with hlnil | ⟨tl, q, rfl⟩
        · subst hlnil
          exact absurd hjoin.symm hnil
        · rw [List.concat_eq_append] at hall hjoin ⊢
          have hq := hall q (by simp)
          have hw_eq : tl.flatten ++ q = w := by
            rw [← hjoin, List.flatten_append, List.flatten_cons, List.flatten_nil,
              List.append_nil]
          have hq1 : 1 ≤ q.length := by
            cases q with
            | nil => exact absurd rfl hq.2
            | cons c cs => simp
          have hqle : q.length ≤ w.length := by
            rw [← hw_eq, List.length_append]; omega
          have hlensum : tl.flatten.length + q.length = w.length := by
            rw [← hw_eq, List.length_append]
          apply List.mem_flatMap.mpr
          refine ⟨tl.flatten.length, List.mem_range.mpr (by omega), ?_⟩
          · have hdropw : w.drop tl.flatten.length = q := by
              rw [← hw_eq, List.drop_left]
            have htakew : w.take tl.flatten.length = tl.flatten := by
              rw [← hw_eq, List.take_left]
            rw [hdropw, if_pos hq.1]
            apply List.mem_map.mpr
            refine ⟨tl, ?_, rfl⟩
            apply (ih (w.take tl.flatten.length)
              (by rw [List.length_take]; omega) tl).mpr
            exact ⟨htakew.symm, fun p hp => hall p (List.mem_append_left _ hp)⟩

/-- The first-block enumeration has no duplicates. -/
theorem nodup_tilingsF (B : List Nat → Bool) :
    ∀ (n : Nat) (w : List Nat), w.length ≤ n → (tilingsF B w).Nodup := by
  intro n
  induction n with
  | zero =>
    intro w hw
    have hnil : w = [] := List.length_eq_zero.mp (Nat.le_zero.mp hw)
    subst hnil
    rw [tilingsF_nil]
    simp
  | succ n ih =>
    intro w hw
    by_cases hnil : w = []
    · subst hnil
      rw [tilingsF_nil]
      simp
    · rw [tilingsF_ne B w hnil]
      apply List.nodup_flatMap.mpr
      constructor
      · intro a _
        by_cases hB : B (w.take (a + 1))
        · rw [if_pos hB]
          refine List.Nodup.map ?_ (ih _ (by rw [List.length_drop]; omega))
          intro x y hxy
          simpa using hxy
        · rw [if_neg hB]
          exact List.nodup_nil
      · apply List.pairwise_iff_getElem.mpr
        intro i j hi hj hij
        simp only [List.getElem_range] at hi hj ⊢
        intro x hxa hxb
        dsimp only at hxa hxb
        have hilt : i < w.length := by simpa using hi
        have hjlt : j < w.length := by simpa using hj
        by_cases hBi : B (w.take (i + 1))
        · rw [if_pos hBi] at hxa
          by_cases hBj : B (w.take (j + 1))
          · rw [if_pos hBj] at hxb
            obtain ⟨tli, _, hxi⟩ := List.mem_map.mp hxa
            obtain ⟨tlj, _, hxj⟩ := List.mem_map.mp hxb
            rw [← hxj] at hxi
            have hheads : w.take (i + 1) = w.take (j + 1) :=
              (List.cons.injEq _ _ _ _).mp hxi |>.1
            have hli : (w.take (i + 1)).length = i + 1 := by
              rw [List.length_take]; omega
            have hlj : (w.take (j + 1)).length = j + 1 := by
              rw [List.length_take]; omega
            rw [hheads, hlj] at hli
            omega
          · rw [if_neg hBj] at hxb
            exact absurd hxb (List.not_mem_nil x)
        · rw [if_neg hBi] at hxa
          exact absurd hxa (List.not_mem_nil x)

/-- The last-block enumeration has no duplicates. -/
theorem nodup_tilingsL (B : List Nat → Bool) :
    ∀ (n : Nat) (w : List Nat), w.length ≤ n → (tilingsL B w).Nodup := by
  intro n
  induction n with
  | zero =>
    intro w hw
    have hnil : w = [] := List.length_eq_zero.mp (Nat.le_zero.mp hw)
    subst hnil
    rw [tilingsL_nil]
    simp
  | succ n ih =>
    intro w hw
    by_cases hnil : w = []
    · subst hnil
      rw [tilingsL_nil]
      simp
    · rw [tilingsL_ne B w hnil]
      apply List.nodup_flatMap.mpr
      constructor
      · intro s hs
        have hslt : s < w.length := List.mem_range.mp hs
        by_cases hB : B (w.drop s)
        · rw [if_pos hB]
          refine List.Nodup.map ?_ (ih _ (by rw [List.length_take]; omega))
          intro x y hxy
          exact (List.append_left_inj _).mp hxy
        · rw [if_neg hB]
          exact List.nodup_nil
      · apply List.pairwise_iff_getElem.mpr
        intro i j hi hj hij
        simp only [List.getElem_range] at hi hj ⊢
        intro x hxa hxb
        dsimp only at hxa hxb
        have hilt : i < w.length := by simpa using hi
        have hjlt : j < w.length := by simpa using hj
        by_cases hBi : B (w.drop i)
        · rw [if_pos hBi] at hxa
          by_cases hBj : B (w.drop j)
          · rw [if_pos hBj] at hxb
            obtain ⟨tli, _, hxi⟩ := List.mem_map.mp hxa
            obtain ⟨tlj, _, hxj⟩ := List.mem_map.mp hxb
            rw [← hxj] at hxi
            have hlasts : w.drop i = w.drop j := by
              have h1 : (tli ++ [w.drop i]).getLast (by simp) = w.drop i :=
                List.getLast_concat _

              have h2 : (tlj ++ [w.drop j]).getLast (by simp) = w.drop j :=
                List.getLast_concat _
              rw [← h1, ← h2]
              congr 1
            have hli : (w.drop i).length = w.length - i := by
              rw [List.length_drop]
            have hlj : (w.drop j).length = w.length - j := by
              rw [List.length_drop]
            rw [hlasts, hlj] at hli
            omega
          · rw [if_neg hBj] at hxb
            exact absurd hxb (List.not_mem_nil x)
        · rw [if_neg hBi] at hxa
          exact absurd hxa (List.not_mem_nil x)

/-- The brute-force oracle counts the first-block enumeration. -/
theorem brute_eq_length_tilingsF (ps : List (List Nat)) :
    ∀ (n : Nat) (w : List Nat), w.length ≤ n →
      brute_force_count ps w = (tilingsF (fun u => decide (u ∈ ps)) w).length := by
  intro n
  induction n with
  | zero =>
    intro w hw
    have hnil : w = [] := List.length_eq_zero.mp (Nat.le_zero.mp hw)
    subst hnil
    rw [brute_force_count, tilingsF_nil]
    simp
  | succ n ih =>
    intro w hw
    by_cases hnil : w = []
    · subst hnil
      rw [brute_force_count, tilingsF_nil]
      simp
    · rw [brute_force_count, if_neg hnil, tilingsF_ne _ w hnil, length_flatMap']
      congr 1
      apply List.map_congr_left
      intro l hl
      have hllt : l < w.length := List.mem_range.mp hl
      by_cases hmem : w.take (l + 1) ∈ ps
      · rw [if_pos hmem, if_pos (by simpa using hmem), List.length_map]
        exact ih _ (by rw [List.length_drop]; omega)
      · rw [if_neg hmem, if_neg (by simpa using hmem)]
        rfl

theorem fcB_nil (B : List Nat → Bool) : fcB B [] = 1 := by
  rw [fcB, tilingsL_nil]
  rfl

/-- The recurrence satisfied by the last-block count. -/
theorem fcB_ne (B : List Nat → Bool) (w : List Nat) (hw : w ≠ []) :
    fcB B w = ((List.range w.length).map (fun s =>
      if B (w.drop s) = true then fcB B (w.take s) else 0)).sum := by
  rw [fcB, tilingsL_ne B w hw, length_flatMap']
  congr 1
  apply List.map_congr_left
  intro s _
  by_cases hB : B (w.drop s)
  · rw [if_pos hB, if_pos hB, List.length_map]
    rfl
  · rw [if_neg hB, if_neg hB]
    rfl

/-- The two enumerations count the same partitions, so the last-block
count equals the brute-force oracle. -/
theorem fcB_eq_brute (ps : List (List Nat)) (w : List Nat) :
    fcB (fun u => decide (u ∈ ps)) w = brute_force_count ps w := by
  have hF := nodup_tilingsF (fun u => decide (u ∈ ps)) w.length w le_rfl
  have hL := nodup_tilingsL (fun u => decide (u ∈ ps)) w.length w le_rfl
  have hfin : (tilingsL (fun u => decide (u ∈ ps)) w).toFinset
      = (tilingsF (fun u => decide (u ∈ ps)) w).toFinset := by
    ext a
    simp only [List.mem_toFinset]
    rw [mem_tilingsL _ w.length w le_rfl, mem_tilingsF _ w.length w le_rfl]
  have hcardL := List.toFinset_card_of_nodup hL
  have hcardF := List.toFinset_card_of_nodup hF
  rw [brute_eq_length_tilingsF ps w.length w le_rfl, fcB, ← hcardL, ← hcardF, hfin]

/-- The last-block enumeration only inspects `B` on nonempty lists. -/
theorem tilingsL_congr (B₁ B₂ : List Nat → Bool)
    (h : ∀ u : List Nat, u ≠ [] → B₁ u = B₂ u) :
    ∀ (n : Nat) (w : List Nat), w.length ≤ n → tilingsL B₁ w = tilingsL B₂ w := by
  intro n
  induction n with
  | zero =>
    intro w hw
    have hnil : w = [] := List.length_eq_zero.mp (Nat.le_zero.mp hw)
    subst hnil
    rw [tilingsL_nil, tilingsL_nil]
  | succ n ih =>
    intro w hw
    by_cases hnil : w = []
    · subst hnil
      rw [tilingsL_nil, tilingsL_nil]
    · rw [tilingsL_ne B₁ w hnil, tilingsL_ne B₂ w hnil]
      apply List.flatMap_congr
      intro s hs
      have hslt : s < w.length := List.mem_range.mp hs
      have hdropne : w.drop s ≠ [] := by
        intro hcon
        have := congrArg List.length hcon
        rw [List.length_drop] at this
        simp at this
        omega
      rw [h (w.drop s) hdropne, ih (w.take s) (by rw [List.length_take]; omega)]

/-- The last-block count only inspects `B` on nonempty lists. -/
theorem fcB_congr (B₁ B₂ : List Nat → Bool)
    (h : ∀ u : List Nat, u ≠ [] → B₁ u = B₂ u) (w : List Nat) :
    fcB B₁ w = fcB B₂ w := by
  rw [fcB, fcB, tilingsL_congr B₁ B₂ h w.length w le_rfl]

/-! The add-word loop: totality under the symbol precondition, and a
precise description of its effect on the arena. -/

theorem addWordLoop_spec {N : Nat} (u : List Nat) :
    ∀ (tes : List (TrieEntry N)) (i : Nat),
      WFA N tes → i < tes.length → (∀ c ∈ u, c < N) →
      ∃ tes2 last,
        addWordLoop N tes i u = some (tes2, last) ∧
        WFA N tes2 ∧
        tes.length ≤ tes2.length ∧
        last < tes2.length ∧
        (∀ k, k < tes.length → termOf tes2 k = termOf tes k) ∧
        (∀ k c, k < tes.length →
          slotOf tes2 k c = slotOf tes k c ∨
          (slotOf tes k c = none ∧
            ∃ v, tes.length ≤ v ∧ slotOf tes2 k c = some v)) ∧
        (∀ k, tes.length ≤ k → termOf tes2 k = false) ∧
        (∀ k c, tes.length ≤ k →
          slotOf tes2 k c = none ∨
            ∃ v, tes.length ≤ v ∧ slotOf tes2 k c = some v) ∧
        walkL tes2 i u = some last := by
  induction u with
  | nil =>
    intro tes i hwf hi _
    refine ⟨tes, i, rfl, hwf, le_rfl, hi, fun k _ => rfl, fun k c _ => Or.inl rfl,
      ?_, ?_, rfl⟩
    · intro k hk
      exact termOf_of_le tes k hk
    · intro k c hk
      exact Or.inl (slotOf_of_le tes k c hk)
  | cons c cs ih =>
    intro tes i hwf hi hsym
    have hc : c < N := hsym c (List.mem_cons_self _ _)
    have hcs : ∀ d ∈ cs, d < N := fun d hd => hsym d (List.mem_cons_of_mem _ hd)
    have helen := hwf.elen i hi
    have hread1 : tes[i]? = some (tes.getD i (TrieEntry.default N)) :=
      getElem?_eq_some_getD _ _ _ hi
    have hread2 : ((tes.getD i (TrieEntry.default N)).entries)[c]?
        = some (slotOf tes i c) :=
      getElem?_eq_some_getD _ _ _ (by rw [helen]; exact hc)
    cases hslot : slotOf tes i c with
    | some j =>
      have hj := hwf.child_bounds i c j hslot
      obtain ⟨tes2, last, hrun, hwf2, hlen2, hlast, hterm, hslots, hfterm, hfslot,
        hwalk⟩ := ih tes j hwf hj.1 hcs
      have hslot2 : slotOf tes2 i c = some j := by
        rcases hslots i c hi with heq | ⟨hnone, _⟩
        · rw [heq, hslot]
        · rw [hslot] at hnone
          exact absurd hnone (by simp)
      refine ⟨tes2, last, ?_, hwf2, hlen2, hlast, hterm, hslots, hfterm, hfslot, ?_⟩
      · simp only [addWordLoop, Option.bind_eq_bind, Option.pure_def, hread1,
          Option.some_bind, hread2, hslot]
        exact hrun
      · rw [walkL, hslot2]
        exact hwalk
    | none =>
      -- a fresh node is allocated at handle `tes.length`
      set te := tes.getD i (TrieEntry.default N) with hte
      set ne2 := te.entries.set c (some tes.length) with hne2
      set te2 : TrieEntry N := ⟨ne2, te.terminal⟩ with hte2
      set tes' := tes.set i te2 ++ [TrieEntry.default N] with htes'
      have hlen' : tes'.length = tes.length + 1 := by
        rw [htes']
        simp
      have hsetlen : (tes.set i te2).length = tes.length := by simp
      have hgetD_i : tes'.getD i (TrieEntry.default N) = te2 := by
        rw [htes', List.getD_append _ _ _ _ (by rw [hsetlen]; exact hi),
          getD_set_self' _ _ _ _ hi]
      have hslotueq : ∀ k c', k < tes.length →
          slotOf tes' k c' =
            if k = i ∧ c' = c then some tes.length else slotOf tes k c' := by
        intro k c' hk
        rw [htes', slotOf, List.getD_append _ _ _ _ (by rw [hsetlen]; exact hk)]
        by_cases hki : k = i
        · subst hki
          rw [getD_set_self' _ _ _ _ hi]
          show ne2.getD c' none = _
          by_cases hcc : c' = c
          · subst hcc
            rw [hne2, getD_set_self' _ _ _ _ (by rw [helen]; exact hc)]
            simp
          · rw [hne2, getD_set_ne' _ _ _ _ _ (fun h => hcc h.symm),
              if_neg (fun h => hcc h.2)]
            rfl
        · rw [getD_set_ne' _ _ _ _ _ (fun h => hki h.symm),
            if_neg (fun h => hki h.1)]
          rfl
      have hslotfresh : ∀ c', slotOf tes' tes.length c' = none := by
        intro c'
        rw [htes', slotOf, List.getD_append_right _ _ _ _ (by rw [hsetlen]),
          hsetlen, Nat.sub_self]
        exact getD_default_entry c'
      have htermeq : ∀ k, k < tes.length → termOf tes' k = termOf tes k := by
        intro k hk
        rw [htes', termOf, List.getD_append _ _ _ _ (by rw [hsetlen]; exact hk)]
        by_cases hki : k = i
        · subst hki
          rw [getD_set_self' _ _ _ _ hi]
          rfl
        · rw [getD_set_ne' _ _ _ _ _ (fun h => hki h.symm)]
          rfl
      have htermfresh : termOf tes' tes.length = false := by
        rw [htes', termOf, List.getD_append_right _ _ _ _ (by rw [hsetlen]),
          hsetlen, Nat.sub_self]
        rfl
      have hwf' : WFA N tes' := by
        refine ⟨?_, ?_, ?_, ?_⟩
        · rw [hlen']
          omega
        · intro k hk
          rw [hlen'] at hk
          by_cases hkold : k < tes.length
          · rw [htes', List.getD_append _ _ _ _ (by rw [hsetlen]; exact hkold)]
            by_cases hki : k = i
            · subst hki
              rw [getD_set_self' _ _ _ _ hi]
              show ne2.length = N
              rw [hne2, List.length_set, helen]
            · rw [getD_set_ne' _ _ _ _ _ (fun h => hki h.symm)]
              exact hwf.elen k hkold
          · have hkeq : k = tes.length := by omega
            subst hkeq
            rw [htes', List.getD_append_right _ _ _ _ (by rw [hsetlen]),
              hsetlen, Nat.sub_self]
            show (TrieEntry.default N).entries.length = N
            rw [TrieEntry.default]
            simp
        · intro k c' v hv
          by_cases hkold : k < tes.length
          · rw [hslotueq k c' hkold] at hv
            by_cases hic : k = i ∧ c' = c
            · rw [if_pos hic] at hv
              have : v = tes.length := by simpa using hv.symm
              subst this
              rw [hlen']
              exact ⟨by omega, hwf.root⟩
            · rw [if_neg hic] at hv
              have := hwf.child_bounds k c' v hv
              rw [hlen']
              exact ⟨by omega, this.2⟩
          · by_cases hkeq : k = tes.length
            · subst hkeq
              rw [hslotfresh c'] at hv
              exact absurd hv (by simp)
            · rw [slotOf_of_le _ _ _ (by rw [hlen']; omega)] at hv
              exact absurd hv (by simp)
        · intro k₁ c₁ k₂ c₂ v h₁ h₂
          have hk₁old : k₁ < tes.length := by
            by_contra hcon
            by_cases hkeq : k₁ = tes.length
            · subst hkeq
              rw [hslotfresh c₁] at h₁
              exact absurd h₁ (by simp)
            · rw [slotOf_of_le _ _ _ (by rw [hlen']; omega)] at h₁
              exact absurd h₁ (by simp)
          have hk₂old : k₂ < tes.length := by
            by_contra hcon
            by_cases hkeq : k₂ = tes.length
            · subst hkeq
              rw [hslotfresh c₂] at h₂
              exact absurd h₂ (by simp)
            · rw [slotOf_of_le _ _ _ (by rw [hlen']; omega)] at h₂
              exact absurd h₂ (by simp)
          rw [hslotueq k₁ c₁ hk₁old] at h₁
          rw [hslotueq k₂ c₂ hk₂old] at h₂
          by_cases hv : v = tes.length
          · subst hv
            by_cases h₁ic : k₁ = i ∧ c₁ = c
            · by_cases h₂ic : k₂ = i ∧ c₂ = c
              · exact ⟨h₁ic.1.trans h₂ic.1.symm, h₁ic.2.trans h₂ic.2.symm⟩
              · rw [if_neg h₂ic] at h₂
                have := hwf.child_bounds k₂ c₂ tes.length h₂
                omega
            · rw [if_neg h₁ic] at h₁
              have := hwf.child_bounds k₁ c₁ tes.length h₁
              omega
          · have h₁ic : ¬(k₁ = i ∧ c₁ = c) := by
              intro hic
              rw [if_pos hic] at h₁
              exact hv (by simpa using h₁.symm)
            have h₂ic : ¬(k₂ = i ∧ c₂ = c) := by
              intro hic
              rw [if_pos hic] at h₂
              exact hv (by simpa using h₂.symm)
            rw [if_neg h₁ic] at h₁
            rw [if_neg h₂ic] at h₂
            exact hwf.indeg k₁ c₁ k₂ c₂ v h₁ h₂
      obtain ⟨tes2, last, hrun, hwf2, hlen2, hlast, hterm, hslots, hfterm, hfslot,
        hwalk⟩ := ih tes' tes.length hwf' (by rw [hlen']; omega) hcs
      have hlen2' : tes.length + 1 ≤ tes2.length := by rw [← hlen']; exact hlen2
      have hslot2i : slotOf tes2 i c = some tes.length := by
        rcases hslots i c (by rw [hlen']; omega) with heq | ⟨hnone, _⟩
        · rw [heq, hslotueq i c hi, if_pos ⟨rfl, rfl⟩]
        · rw [hslotueq i c hi, if_pos ⟨rfl, rfl⟩] at hnone
          exact absurd hnone (by simp)
      refine ⟨tes2, last, ?_, hwf2, by omega, hlast, ?_, ?_, ?_, ?_, ?_⟩
      · -- evaluate one iteration of the loop body
        have hsetE : setChecked te.entries c (some tes.length) = some ne2 := by
          rw [setChecked, if_pos (by rw [helen]; exact hc), hne2]
        have hsetT : setChecked tes i te2 = some (tes.set i te2) := by
          rw [setChecked, if_pos hi]
        have hread3 : tes'[i]? = some te2 := by
          rw [getElem?_eq_some_getD tes' i (TrieEntry.default N)
            (by rw [hlen']; omega), hgetD_i]
        have hread4 : (te2.entries)[c]? = some (some tes.length) := by
          have : te2.entries.getD c none = some tes.length := by
            show ne2.getD c none = _
            rw [hne2, getD_set_self' _ _ _ _ (by rw [helen]; exact hc)]
          rw [getElem?_eq_some_getD _ _ none
            (by show c < ne2.length; rw [hne2, List.length_set, helen]; exact hc),
            this]
        simp only [addWordLoop, Option.bind_eq_bind, Option.pure_def, hread1,
          Option.some_bind, hread2, hslot, hsetE, hsetT, hread3, hread4]
        exact hrun
      · intro k hk
        rw [hterm k (by rw [hlen']; omega), htermeq k hk]
      · intro k c' hk
        rcases hslots k c' (by rw [hlen']; omega) with heq | ⟨hnone, v, hvle, hveq⟩
        · rw [heq, hslotueq k c' hk]
          by_cases hic : k = i ∧ c' = c
          · rw [if_pos hic]
            refine Or.inr ⟨?_, tes.length, le_rfl, rfl⟩
            rw [← hic.1, ← hic.2] at hslot
            exact hslot
          · rw [if_neg hic]
            exact Or.inl rfl
        · rw [hslotueq k c' hk] at hnone
          by_cases hic : k = i ∧ c' = c
          · rw [if_pos hic] at hnone
            exact absurd hnone (by simp)
          · rw [if_neg hic] at hnone
            exact Or.inr ⟨hnone, v, by omega, hveq⟩
      · intro k hk
        by_cases hkeq : k = tes.length
        · subst hkeq
          rw [hterm _ (by omega), htermfresh]
        · exact hfterm k (by omega)
      · intro k c' hk
        by_cases hkeq : k = tes.length
        · subst hkeq
          rcases hslots tes.length c' (by omega) with heq | ⟨_, v, hvle, hveq⟩
          · rw [heq, hslotfresh c']
            exact Or.inl rfl
          · exact Or.inr ⟨v, by omega, hveq⟩
        · rcases hfslot k c' (by omega) with hnone | ⟨v, hvle, hveq⟩
          · exact Or.inl hnone
          · exact Or.inr ⟨v, by omega, hveq⟩
      · rw [walkL, hslot2i]
        exact hwalk

/-! Walk lemmas. -/

/-- Walks from a valid node end at a valid node. -/
theorem walkL_valid {N : Nat} (tes : List (TrieEntry N)) (hwf : WFA N tes) :
    ∀ (w : List Nat) (i v : Nat), i < tes.length → walkL tes i w = some v →
      v < tes.length := by
  intro w
  induction w with
  | nil =>
    intro i v hi hw
    have : i = v := by simpa [walkL] using hw
    omega
  | cons c cs ih =>
    intro i v hi hw
    rw [walkL] at hw
    cases hslot : slotOf tes i c with
    | none => rw [hslot] at hw; exact absurd hw (by simp)
    | some j =>
      rw [hslot] at hw
      exact ih j v (hwf.child_bounds i c j hslot).1 hw

/-- Walking a concatenation is walking the parts in sequence. -/
theorem walkL_append {N : Nat} (tes : List (TrieEntry N)) (u v : List Nat) :
    ∀ i, walkL tes i (u ++ v) = (walkL tes i u).bind (fun j => walkL tes j v) := by
  induction u with
  | nil => intro i; simp [walkL]
  | cons c cs ih =>
    intro i
    rw [List.cons_append, walkL, walkL]
    cases hslot : slotOf tes i c with
    | none => simp
    | some j => exact ih j

/-- Walks depend only on the slots. -/
theorem walkL_congr {N : Nat} (tes tes2 : List (TrieEntry N))
    (h : ∀ k c, slotOf tes k c = slotOf tes2 k c) :
    ∀ (w : List Nat) (i : Nat), walkL tes i w = walkL tes2 i w := by
  intro w
  induction w with
  | nil => intro i; rfl
  | cons c cs ih =>
    intro i
    rw [walkL, walkL, h i c]
    cases slotOf tes2 i c with
    | none => rfl
    | some j => exact ih j

/-- Walks that succeeded in the old arena are unchanged in the new one. -/
theorem walkL_mono {N : Nat} (tes tes2 : List (TrieEntry N)) (hwf : WFA N tes)
    (hext : ArenaExtends N tes tes2) :
    ∀ (w : List Nat) (i v : Nat), i < tes.length → walkL tes i w = some v →
      walkL tes2 i w = some v := by
  intro w
  induction w with
  | nil => intro i v _ hw; exact hw
  | cons c cs ih =>
    intro i v hi hw
    rw [walkL] at hw
    cases hslot : slotOf tes i c with
    | none => rw [hslot] at hw; exact absurd hw (by simp)
    | some j =>
      rw [hslot] at hw
      have hslot2 : slotOf tes2 i c = some j := by
        rcases hext.slot_old i c hi with heq | ⟨hnone, _⟩
        · rw [heq, hslot]
        · rw [hslot] at hnone; exact absurd hnone (by simp)
      rw [walkL, hslot2]
      exact ih j v (hwf.child_bounds i c j hslot).1 hw

/-- Walks that start at a fresh node stay fresh. -/
theorem walkL_fresh {N : Nat} (tes tes2 : List (TrieEntry N))
    (hext : ArenaExtends N tes tes2) :
    ∀ (w : List Nat) (i v : Nat), tes.length ≤ i → walkL tes2 i w = some v →
      tes.length ≤ v := by
  intro w
  induction w with
  | nil =>
    intro i v hi hw
    have : i = v := by simpa [walkL] using hw
    omega
  | cons c cs ih =>
    intro i v hi hw
    rw [walkL] at hw
    cases hslot : slotOf tes2 i c with
    | none => rw [hslot] at hw; exact absurd hw (by simp)
    | some j =>
      rw [hslot] at hw
      rcases hext.slot_fresh i c hi with hnone | ⟨v2, hv2, heq⟩
      · rw [hnone] at hslot; exact absurd hslot.symm (by simp)
      · rw [heq] at hslot
        have : v2 = j := by simpa using hslot
        exact ih j v (this ▸ hv2) hw

/-- A new-arena walk from an old node that lands on an old node was
already a walk of the old arena. -/
theorem walkL_back {N : Nat} (tes tes2 : List (TrieEntry N)) (hwf : WFA N tes)
    (hext : ArenaExtends N tes tes2) :
    ∀ (w : List Nat) (i v : Nat), i < tes.length → v < tes.length →
      walkL tes2 i w = some v → walkL tes i w = some v := by
  intro w
  induction w with
  | nil => intro i v _ _ hw; exact hw
  | cons c cs ih =>
    intro i v hi hv hw
    rw [walkL] at hw
    cases hslot : slotOf tes2 i c with
    | none => rw [hslot] at hw; exact absurd hw (by simp)
    | some j =>
      rw [hslot] at hw
      rcases hext.slot_old i c hi with heq | ⟨hnone, v2, hv2, heq⟩
      · rw [heq] at hslot
        rw [walkL, hslot]
        exact ih j v (hwf.child_bounds i c j hslot).1 hv hw
      · rw [heq] at hslot
        have hj : v2 = j := by simpa using hslot
        subst hj
        have := walkL_fresh tes tes2 hext cs v2 v hv2 hw
        omega

/-- In a well-formed arena, each node is reached from the root by at
most one word (each node has a unique incoming edge and the root has
none). -/
theorem walkL_unique {N : Nat} (tes : List (TrieEntry N)) (hwf : WFA N tes) :
    ∀ (n : Nat) (w₁ : List Nat), w₁.length ≤ n → ∀ (w₂ : List Nat) (v : Nat),
      walkL tes 0 w₁ = some v → walkL tes 0 w₂ = some v → w₁ = w₂ := by
  intro n
  induction n with
  | zero =>
    intro w₁ hlen w₂ v h₁ h₂
    have hnil : w₁ = [] := List.length_eq_zero.mp (Nat.le_zero.mp hlen)
    subst hnil
    have hv : v = 0 := by simpa [walkL] using h₁.symm
    subst hv
    rcases List.eq_nil_or_concat w₂ with hnil | ⟨w₂h, c₂, rfl⟩
    · exact hnil.symm
    · rw [List.concat_eq_append, walkL_append] at h₂
      cases hwalk : walkL tes 0 w₂h with
      | none => rw [hwalk] at h₂; exact absurd h₂ (by simp)
      | some p =>
        rw [hwalk] at h₂
        rw [Option.some_bind, walkL] at h₂
        cases hslot : slotOf tes p c₂ with
        | none => rw [hslot] at h₂; exact absurd h₂ (by simp)
        | some j =>
          rw [hslot] at h₂
          have : j = 0 := by simpa [walkL] using h₂
          subst this
          have := (hwf.child_bounds p c₂ 0 hslot).2
          omega
  | succ n ih =>
    intro w₁ hlen w₂ v h₁ h₂
    rcases List.eq_nil_or_concat w₁ with hnil | ⟨w₁h, c₁, rfl⟩
    · subst hnil
      have hv : v = 0 := by simpa [walkL] using h₁.symm
      subst hv
      rcases List.eq_nil_or_concat w₂ with hnil | ⟨w₂h, c₂, rfl⟩
      · exact hnil.symm
      · rw [List.concat_eq_append, walkL_append] at h₂
        cases hwalk : walkL tes 0 w₂h with
        | none => rw [hwalk] at h₂; exact absurd h₂ (by simp)
        | some p =>
          rw [hwalk, Option.some_bind, walkL] at h₂
          cases hslot : slotOf tes p c₂ with
          | none => rw [hslot] at h₂; exact absurd h₂ (by simp)
          | some j =>
            rw [hslot] at h₂
            have : j = 0 := by simpa [walkL] using h₂
            subst this
            have := (hwf.child_bounds p c₂ 0 hslot).2
            omega
    · rcases List.eq_nil_or_concat w₂ with hnil | ⟨w₂h, c₂, rfl⟩
      · subst hnil
        have hv : v = 0 := by simpa [walkL] using h₂.symm
        subst hv
        rw [List.concat_eq_append, walkL_append] at h₁
        cases hwalk : walkL tes 0 w₁h with
        | none => rw [hwalk] at h₁; exact absurd h₁ (by simp)
        | some p =>
          rw [hwalk, Option.some_bind, walkL] at h₁
          cases hslot : slotOf tes p c₁ with
          | none => rw [hslot] at h₁; exact absurd h₁ (by simp)
          | some j =>
            rw [hslot] at h₁
            have : j = 0 := by simpa [walkL] using h₁
            subst this
            have := (hwf.child_bounds p c₁ 0 hslot).2
            omega
      · rw [List.concat_eq_append, walkL_append] at h₁ h₂
        cases hwalk₁ : walkL tes 0 w₁h with
        | none => rw [hwalk₁] at h₁; exact absurd h₁ (by simp)
        | some p₁ =>
          cases hwalk₂ : walkL tes 0 w₂h with
          | none => rw [hwalk₂] at h₂; exact absurd h₂ (by simp)
          | some p₂ =>
            rw [hwalk₁, Option.some_bind, walkL] at h₁
            rw [hwalk₂, Option.some_bind, walkL] at h₂
            cases hslot₁ : slotOf tes p₁ c₁ with
            | none => rw [hslot₁] at h₁; exact absurd h₁ (by simp)
            | some j₁ =>
              cases hslot₂ : slotOf tes p₂ c₂ with
              | none => rw [hslot₂] at h₂; exact absurd h₂ (by simp)
              | some j₂ =>
                rw [hslot₁] at h₁
                rw [hslot₂] at h₂
                have hj₁ : j₁ = v := by simpa [walkL] using h₁
                have hj₂ : j₂ = v := by simpa [walkL] using h₂
                have hslot₂' : slotOf tes p₂ c₂ = some j₁ := by
                  rw [hslot₂, hj₂, ← hj₁]
                obtain ⟨hp, hcind⟩ := hwf.indeg p₁ c₁ p₂ c₂ j₁ hslot₁ hslot₂'
                have hlen1 : w₁h.length ≤ n := by
                  rw [List.concat_eq_append, List.length_append] at hlen
                  simp at hlen
                  omega
                rw [ih w₁h hlen1 w₂h p₁ hwalk₁ (hp ▸ hwalk₂), hcind]

/-- Effect of `add_word`: it succeeds, preserves well-formedness, and
adds exactly the given word to the set of words the trie holds. -/
theorem add_word_spec {N : Nat} (t : Trie N) (u : List Nat)
    (hwf : WFA N t.trie_entries) (hsym : ∀ c ∈ u, c < N) :
    ∃ t2 : Trie N, t.add_word u = some t2 ∧ WFA N t2.trie_entries ∧
      ∀ w : List Nat, inTrieB t2 w = (inTrieB t w || decide (w = u)) := by
  obtain ⟨tes2, last, hrun, hwf2, hlen2, hlast, hterm, hslots, hfterm, hfslot,
    hwalk⟩ := addWordLoop_spec u t.trie_entries 0 hwf hwf.root hsym
  have hext : ArenaExtends N t.trie_entries tes2 :=
    ⟨hlen2, hterm, hslots, hfterm, hfslot⟩
  set tes := t.trie_entries with htes
  set teL := tes2.getD last (TrieEntry.default N) with hteL
  set tesF := tes2.set last ⟨teL.entries, true⟩ with htesF
  have hread : tes2[last]? = some teL := getElem?_eq_some_getD _ _ _ hlast
  have hset : setChecked tes2 last ⟨teL.entries, true⟩ = some tesF := by
    rw [setChecked, if_pos hlast]
  have hrunF : t.add_word u = some ⟨tesF⟩ := by
    simp only [Trie.add_word, Option.bind_eq_bind, Option.pure_def, hrun,
      Option.some_bind, hread, hset]
  have hslotF : ∀ k c, slotOf tesF k c = slotOf tes2 k c := by
    intro k c
    rw [htesF, slotOf, slotOf]
    by_cases hk : k = last
    · subst hk
      rw [getD_set_self' _ _ _ _ hlast]
    · rw [getD_set_ne' _ _ _ _ _ (fun h => hk h.symm)]
  have htermF : ∀ k, termOf tesF k = (termOf tes2 k || decide (k = last)) := by
    intro k
    by_cases hk : k = last
    · subst hk
      rw [htesF, termOf, getD_set_self' _ _ _ _ hlast]
      simp
    · rw [htesF, termOf, getD_set_ne' _ _ _ _ _ (fun h => hk h.symm)]
      simp [termOf, hk]
  have hlenF : tesF.length = tes2.length := by
    rw [htesF]
    simp
  have hwfF : WFA N tesF := by
    refine ⟨by rw [hlenF]; exact hwf2.root, ?_, ?_, ?_⟩
    · intro k hk
      rw [hlenF] at hk
      by_cases hkl : k = last
      · subst hkl
        rw [htesF, getD_set_self' _ _ _ _ hlast]
        exact hwf2.elen k hk
      · rw [htesF, getD_set_ne' _ _ _ _ _ (fun h => hkl h.symm)]
        exact hwf2.elen k hk
    · intro k c v hv
      rw [hslotF] at hv
      rw [hlenF]
      exact hwf2.child_bounds k c v hv
    · intro k₁ c₁ k₂ c₂ v h₁ h₂
      rw [hslotF] at h₁ h₂
      exact hwf2.indeg k₁ c₁ k₂ c₂ v h₁ h₂
  refine ⟨⟨tesF⟩, hrunF, hwfF, ?_⟩
  intro w
  have hwcongr : walkL tesF 0 w = walkL tes2 0 w :=
    walkL_congr tesF tes2 (fun k c => hslotF k c) w 0
  have hLHS : inTrieB (⟨tesF⟩ : Trie N) w
      = (match walkL tes2 0 w with
         | some j => termOf tesF j
         | none => false) := by
    show (match walkL tesF 0 w with
         | some j => termOf tesF j
         | none => false) = _
    rw [hwcongr]
  have hRHS : inTrieB t w
      = (match walkL tes 0 w with
         | some j => termOf tes j
         | none => false) := rfl
  rw [hLHS, hRHS]
  by_cases hwu : w = u
  · subst hwu
    rw [hwalk]
    show termOf tesF last = _
    rw [htermF last]
    simp
  · cases hWold : walkL tes 0 w with
    | some v =>
      have hv : v < tes.length := walkL_valid tes hwf w 0 v hwf.root hWold
      have hW2 : walkL tes2 0 w = some v :=
        walkL_mono tes tes2 hwf hext w 0 v hwf.root hWold
      rw [hW2]
      show termOf tesF v = _
      have hvlast : v ≠ last := by
        intro hcon
        subst hcon
        exact hwu (walkL_unique tes2 hwf2 w.length w le_rfl u v hW2 hwalk)
      rw [htermF v, hterm v hv]
      simp [hvlast, hwu]
    | none =>
      cases hW2 : walkL tes2 0 w with
      | none => simp [hwu]
      | some v =>
        have hvfresh : tes.length ≤ v := by
          by_contra hcon
          have hback := walkL_back tes tes2 hwf hext w 0 v hwf.root
            (Nat.lt_of_not_le hcon) hW2
          rw [hWold] at hback
          exact absurd hback (by simp)
        have hvlast : v ≠ last := by
          intro hcon
          subst hcon
          exact hwu (walkL_unique tes2 hwf2 w.length w le_rfl u v hW2 hwalk)
        show termOf tesF v = _
        rw [htermF v, hfterm v hvfresh]
        simp [hvlast, hwu]

/-- The empty trie is well-formed. -/
theorem wfa_default (N : Nat) : WFA N (Trie.default N).trie_entries := by
  refine ⟨by simp [Trie.default], ?_, ?_, ?_⟩
  · intro k hk
    have hk0 : k = 0 := by
      simpa [Trie.default] using hk
    subst hk0
    show (([TrieEntry.default N] : List (TrieEntry N)).getD 0 _).entries.length = N
    simp [TrieEntry.default]
  · intro k c v hv
    have : slotOf (Trie.default N).trie_entries k c = none := by
      show slotOf [TrieEntry.default N] k c = none
      cases k with
      | zero =>
        rw [slotOf]
        simpa using getD_default_entry c
      | succ m => exact slotOf_of_le _ _ _ (by simp)
    rw [this] at hv
    exact absurd hv (by simp)
  · intro k₁ c₁ k₂ c₂ v h₁ h₂
    have : slotOf (Trie.default N).trie_entries k₁ c₁ = none := by
      show slotOf [TrieEntry.default N] k₁ c₁ = none
      cases k₁ with
      | zero =>
        rw [slotOf]
        simpa using getD_default_entry c₁
      | succ m => exact slotOf_of_le _ _ _ (by simp)
    rw [this] at h₁
    exact absurd h₁ (by simp)

/-- The empty trie holds no words. -/
theorem inTrieB_default (N : Nat) (w : List Nat) :
    inTrieB (Trie.default N) w = false := by
  cases w with
  | nil => rfl
  | cons c cs =>
    show (match walkL [TrieEntry.default N] 0 (c :: cs) with
      | some j => termOf [TrieEntry.default N] j
      | none => false) = false
    rw [walkL]
    have : slotOf [TrieEntry.default N] 0 c = none := by
      rw [slotOf]
      simpa using getD_default_entry c
    rw [this]

/-- Folding `add_word` over a word list: totality, well-formedness, and
the set of words held at the end. -/
theorem foldl_add_word_spec {N : Nat} :
    ∀ (words : List (List Nat)) (t0 : Trie N),
      WFA N t0.trie_entries → (∀ p ∈ words, ∀ c ∈ p, c < N) →
      ∃ t : Trie N,
        words.foldlM (fun t w => t.add_word w) t0 = some t ∧
        WFA N t.trie_entries ∧
        ∀ w, inTrieB t w = (inTrieB t0 w || decide (w ∈ words)) := by
  intro words
  induction words with
  | nil =>
    intro t0 hwf _
    refine ⟨t0, rfl, hwf, ?_⟩
    intro w
    simp
  | cons u ws ih =>
    intro t0 hwf hsym
    obtain ⟨t1, hrun1, hwf1, hchar1⟩ :=
      add_word_spec t0 u hwf (hsym u (List.mem_cons_self _ _))
    obtain ⟨t, hrun, hwft, hchar⟩ :=
      ih t1 hwf1 (fun p hp c hc => hsym p (List.mem_cons_of_mem _ hp) c hc)
    refine ⟨t, ?_, hwft, ?_⟩
    · rw [List.foldlM_cons, hrun1]
      show (some t1).bind _ = some t
      rw [Option.some_bind]
      exact hrun
    · intro w
      rw [hchar w, hchar1 w]
      by_cases hwu : w = u
      · subst hwu
        simp
      · simp [hwu, List.mem_cons]

/-- The trie built by `from_iter` holds exactly the given pattern set. -/
theorem from_iter_spec {N : Nat} (words : List (List Nat))
    (hsym : ∀ p ∈ words, ∀ c ∈ p, c < N) :
    ∃ t : Trie N, Trie.from_iter N words = some t ∧ WFA N t.trie_entries ∧
      ∀ w, inTrieB t w = decide (w ∈ words) := by
  obtain ⟨t, hrun, hwf, hchar⟩ :=
    foldl_add_word_spec words (Trie.default N) (wfa_default N) hsym
  refine ⟨t, hrun, hwf, ?_⟩
  intro w
  rw [hchar w, inTrieB_default]
  simp

/-! Slices of the target word, as used by the DP inner loop. -/

theorem slice_succ (w : List Nat) (s e : Nat) (hse : s ≤ e) (he : e < w.length) :
    (w.take (e + 1)).drop s = ((w.take e).drop s) ++ [w.getD e 0] := by
  rw [List.take_succ, List.getElem?_eq_getElem he, Option.toList_some,
    List.drop_append_of_le_length (by rw [List.length_take]; omega),
    List.getD_eq_getElem _ _ he]

theorem slice_split (w : List Nat) (s e k : Nat) (hse : s ≤ e) (hek : e < k)
    (hk : k ≤ w.length) :
    (w.take k).drop s
      = ((w.take e).drop s) ++ (w.getD e 0 :: ((w.take k).drop (e + 1))) := by
  conv_lhs => rw [← List.take_append_drop e (w.take k)]
  rw [List.take_take, min_eq_left (by omega)]
  have helt : e < (w.take k).length := by
    rw [List.length_take]
    omega
  have hdrop : (w.take k).drop e = w.getD e 0 :: ((w.take k).drop (e + 1)) := by
    rw [List.drop_eq_getElem_cons helt]
    congr 1
    rw [List.getElem_take, List.getD_eq_getElem _ _ (by omega)]
  rw [hdrop, List.drop_append_of_le_length (by rw [List.length_take]; omega)]

/-- The prefix recurrence of the last-block count. -/
theorem fcB_take_succ (B : List Nat → Bool) (w : List Nat) (k : Nat)
    (hk : k < w.length) :
    fcB B (w.take (k + 1)) = ((List.range (k + 1)).map (fun s =>
      if B ((w.take (k + 1)).drop s) = true then fcB B (w.take s) else 0)).sum := by
  have hlen : (w.take (k + 1)).length = k + 1 := by
    rw [List.length_take]
    omega
  have hne : w.take (k + 1) ≠ [] := by
    intro hcon
    rw [hcon] at hlen
    simp at hlen
  rw [fcB_ne B _ hne, hlen]
  apply congrArg
  apply List.map_congr_left
  intro s hs
  have hslt : s < k + 1 := List.mem_range.mp hs
  rw [List.take_take, min_eq_left (by omega)]

/-! The DP loops refine the last-block count. -/

theorem innerLoop_spec {N : Nat} (t : Trie N) (hwf : WFA N t.trie_entries)
    (word : List Nat) (hsym : ∀ c ∈ word, c < N) (start : Nat) :
    ∀ (fuel e last : Nat) (reach : List Nat),
      word.length - e ≤ fuel →
      start ≤ e →
      reach.length = word.length + 1 →
      last < t.trie_entries.length →
      walkL t.trie_entries 0 ((word.take e).drop start) = some last →
      ∃ reach2, innerLoop t word start last e reach = some reach2 ∧
        reach2.length = word.length + 1 ∧
        ∀ k, reach2.getD k 0 = reach.getD k 0 +
          (if e < k ∧ k ≤ word.length ∧
              inTrieB t ((word.take k).drop start) = true
           then reach.getD start 0 else 0) := by
  intro fuel
  induction fuel with
  | zero =>
    intro e last reach hfuel hse hlen hlast hwalk
    have he : ¬ e < word.length := by omega
    refine ⟨reach, ?_, hlen, ?_⟩
    · rw [innerLoop, dif_neg he]
      rfl
    · intro k
      rw [if_neg (by rintro ⟨h1, h2, _⟩; omega)]
      omega
  | succ fuel ih =>
    intro e last reach hfuel hse hlen hlast hwalk
    by_cases he : e < word.length
    · have hc : word.getD e 0 < N := by
        apply hsym
        rw [List.getD_eq_getElem _ _ he]
        exact List.getElem_mem he
      set tes := t.trie_entries with htes
      set c := word.getD e 0 with hcdef
      have hr1 : word[e]? = some c := getElem?_eq_some_getD _ _ _ he
      have hr2 : tes[last]? = some (tes.getD last (TrieEntry.default N)) :=
        getElem?_eq_some_getD _ _ _ hlast
      have hr3 : ((tes.getD last (TrieEntry.default N)).entries)[c]?
          = some (slotOf tes last c) :=
        getElem?_eq_some_getD _ _ _ (by rw [hwf.elen last hlast]; exact hc)
      have hwalk1 : ∀ cur, slotOf tes last c = some cur →
          walkL tes 0 ((word.take (e + 1)).drop start) = some cur := by
        intro cur hslot
        rw [slice_succ word start e hse he, walkL_append, hwalk,
          Option.some_bind, walkL, ← hcdef, hslot]
        rfl
      cases hslot : slotOf tes last c with
      | none =>
        refine ⟨reach, ?_, hlen, ?_⟩
        · rw [innerLoop, dif_pos he]
          simp only [Option.bind_eq_bind, Option.pure_def, hr1, Option.some_bind,
            hr2, hr3, hslot]
        · intro k
          rw [if_neg ?_]
          · omega
          · rintro ⟨h1, h2, h3⟩
            have hsplit := slice_split word start e k hse h1 h2
            rw [inTrieB, hsplit, walkL_append, hwalk, Option.some_bind,
              walkL, ← hcdef, hslot] at h3
            simp at h3
      | some cur =>
        have hcur : cur < tes.length := (hwf.child_bounds last c cur hslot).1
        have hr4 : tes[cur]? = some (tes.getD cur (TrieEntry.default N)) :=
          getElem?_eq_some_getD _ _ _ hcur
        have hintrie1 : inTrieB t ((word.take (e + 1)).drop start)
            = (tes.getD cur (TrieEntry.default N)).terminal := by
          rw [inTrieB, hwalk1 cur hslot]
          rfl
        by_cases hterm : (tes.getD cur (TrieEntry.default N)).terminal
        · have hr5 : reach[start]? = some (reach.getD start 0) :=
            getElem?_eq_some_getD _ _ _ (by omega)
          have hr6 : reach[e + 1]? = some (reach.getD (e + 1) 0) :=
            getElem?_eq_some_getD _ _ _ (by omega)
          set reach1 := reach.set (e + 1) (reach.getD (e + 1) 0 + reach.getD start 0)
            with hreach1
          have hset : setChecked reach (e + 1)
              (reach.getD (e + 1) 0 + reach.getD start 0) = some reach1 := by
            rw [setChecked, if_pos (by omega)]
          obtain ⟨reach2, hrun2, hlen2, hform2⟩ := ih (e + 1) cur reach1
            (by omega) (by omega) (by rw [hreach1]; simpa using hlen) hcur
            (hwalk1 cur hslot)
          refine ⟨reach2, ?_, hlen2, ?_⟩
          · rw [innerLoop, dif_pos he]
            simp only [Option.bind_eq_bind, Option.pure_def, hr1, Option.some_bind,
              hr2, hr3, hslot, hr4, if_pos hterm, hr5, hr6, hset]
            exact hrun2
          · intro k
            have hr1start : reach1.getD start 0 = reach.getD start 0 := by
              rw [hreach1, getD_set_ne' _ _ _ _ _ (by omega)]
            rw [hform2 k, hr1start]
            by_cases hke : k = e + 1
            · subst hke
              rw [hreach1, getD_set_self' _ _ _ _ (by omega)]
              rw [if_neg (by rintro ⟨h1, _, _⟩; omega)]
              rw [if_pos ⟨by omega, by omega, by rw [hintrie1]; exact hterm⟩]
              omega
            · have hr1k : reach1.getD k 0 = reach.getD k 0 := by
                rw [hreach1, getD_set_ne' _ _ _ _ _ (fun h => hke h.symm)]
              rw [hr1k]
              by_cases hcond : e + 1 < k ∧ k ≤ word.length ∧
                  inTrieB t ((word.take k).drop start) = true
              · rw [if_pos hcond, if_pos ⟨by omega, hcond.2.1, hcond.2.2⟩]
              · rw [if_neg hcond, if_neg ?_]
                rintro ⟨h1, h2, h3⟩
                exact hcond ⟨by omega, h2, h3⟩
        · obtain ⟨reach2, hrun2, hlen2, hform2⟩ := ih (e + 1) cur reach
            (by omega) (by omega) hlen hcur (hwalk1 cur hslot)
          refine ⟨reach2, ?_, hlen2, ?_⟩
          · rw [innerLoop, dif_pos he]
            simp only [Option.bind_eq_bind, Option.pure_def, hr1, Option.some_bind,
              hr2, hr3, hslot, hr4, if_neg hterm]
            exact hrun2
          · intro k
            rw [hform2 k]
            by_cases hke : k = e + 1
            · subst hke
              rw [if_neg (by rintro ⟨h1, _, _⟩; omega)]
              rw [if_neg ?_]
              · rintro ⟨_, _, h3⟩
                rw [hintrie1] at h3
                exact hterm h3
            · by_cases hcond : e + 1 < k ∧ k ≤ word.length ∧
                  inTrieB t ((word.take k).drop start) = true
              · rw [if_pos hcond, if_pos ⟨by omega, hcond.2.1, hcond.2.2⟩]
              · rw [if_neg hcond, if_neg ?_]
                · rintro ⟨h1, h2, h3⟩
                  exact hcond ⟨by omega, h2, h3⟩
    · have hfe : word.length - e ≤ fuel := by omega
      refine ⟨reach, ?_, hlen, ?_⟩
      · rw [innerLoop, dif_neg he]
        rfl
      · intro k
        rw [if_neg (by rintro ⟨h1, h2, _⟩; omega)]
        omega

theorem outerLoop_spec {N : Nat} (t : Trie N) (hwf : WFA N t.trie_entries)
    (word : List Nat) (hsym : ∀ c ∈ word, c < N) :
    ∀ (fuel s0 : Nat) (reach : List Nat),
      word.length - s0 ≤ fuel →
      reach.length = word.length + 1 →
      (∀ k, k ≤ s0 →
        reach.getD k 0 = fcB (fun u => inTrieB t u) (word.take k)) →
      (∀ k, s0 < k → k ≤ word.length →
        reach.getD k 0 = ((List.range s0).map (fun s =>
          if inTrieB t ((word.take k).drop s) = true
          then fcB (fun u => inTrieB t u) (word.take s) else 0)).sum) →
      ∃ reachF, outerLoop t word s0 reach = some reachF ∧
        reachF.length = word.length + 1 ∧
        ∀ k, k ≤ word.length →
          reachF.getD k 0 = fcB (fun u => inTrieB t u) (word.take k) := by
  intro fuel
  induction fuel with
  | zero =>
    intro s0 reach hfuel hlen h1 h2
    have hs : ¬ s0 < word.length := by omega
    refine ⟨reach, ?_, hlen, ?_⟩
    · rw [outerLoop, dif_neg hs]
      rfl
    · intro k hk
      exact h1 k (by omega)
  | succ fuel ih =>
    intro s0 reach hfuel hlen h1 h2
    by_cases hs : s0 < word.length
    · have hr : reach[s0]? = some (reach.getD s0 0) :=
        getElem?_eq_some_getD _ _ _ (by omega)
      have hwalk0 : walkL t.trie_entries 0 ((word.take s0).drop s0) = some 0 := by
        have hnil : (word.take s0).drop s0 = [] := by
          apply List.drop_eq_nil_of_le
          rw [List.length_take]
          omega
        rw [hnil]
        rfl
      have hmain : ∃ reach2,
          (if reach.getD s0 0 == 0 then pure reach
            else innerLoop t word s0 0 s0 reach : Option (List Nat))
            = some reach2 ∧
          reach2.length = word.length + 1 ∧
          ∀ k, reach2.getD k 0 = reach.getD k 0 +
            (if s0 < k ∧ k ≤ word.length ∧
                inTrieB t ((word.take k).drop s0) = true
             then fcB (fun u => inTrieB t u) (word.take s0) else 0) := by
        by_cases hz : reach.getD s0 0 = 0
        · refine ⟨reach, ?_, hlen, ?_⟩
          · rw [if_pos (by simpa using hz)]
            rfl
          · intro k
            rw [← h1 s0 le_rfl, hz]
            simp
        · obtain ⟨reach2, hrun2, hlen2, hform2⟩ := innerLoop_spec t hwf word hsym
            s0 (word.length - s0) s0 0 reach le_rfl le_rfl hlen hwf.root hwalk0
          refine ⟨reach2, ?_, hlen2, ?_⟩
          · rw [if_neg (by simpa using hz)]
            exact hrun2
          · intro k
            rw [hform2 k, h1 s0 le_rfl]
      obtain ⟨reach2, hbranch, hlen2, hform⟩ := hmain
      have h1' : ∀ k, k ≤ s0 + 1 →
          reach2.getD k 0 = fcB (fun u => inTrieB t u) (word.take k) := by
        intro k hk
        by_cases hks : k ≤ s0
        · rw [hform k, if_neg (by rintro ⟨hcon, _, _⟩; omega)]
          rw [h1 k hks]
          omega
        · have hkeq : k = s0 + 1 := by omega
          subst hkeq
          rw [hform (s0 + 1), h2 (s0 + 1) (by omega) (by omega)]
          rw [fcB_take_succ _ word s0 hs, List.range_succ, List.map_append,
            List.sum_append]
          simp only [List.map_cons, List.map_nil, List.sum_cons, List.sum_nil,
            add_zero]
          congr 1
          by_cases hin : inTrieB t ((word.take (s0 + 1)).drop s0) = true
          · rw [if_pos hin, if_pos ⟨by omega, by omega, hin⟩]
          · rw [if_neg hin, if_neg (by rintro ⟨_, _, hcon⟩; exact hin hcon)]
      have h2' : ∀ k, s0 + 1 < k → k ≤ word.length →
          reach2.getD k 0 = ((List.range (s0 + 1)).map (fun s =>
            if inTrieB t ((word.take k).drop s) = true
            then fcB (fun u => inTrieB t u) (word.take s) else 0)).sum := by
        intro k hk1 hk2
        rw [hform k, h2 k (by omega) hk2, List.range_succ, List.map_append,
          List.sum_append]
        simp only [List.map_cons, List.map_nil, List.sum_cons, List.sum_nil,
          add_zero]
        congr 1
        by_cases hin : inTrieB t ((word.take k).drop s0) = true
        · rw [if_pos hin, if_pos ⟨by omega, by omega, hin⟩]
        · rw [if_neg hin, if_neg (by rintro ⟨_, _, hcon⟩; exact hin hcon)]
      obtain ⟨reachF, hrunF, hlenF, hfinal⟩ :=
        ih (s0 + 1) reach2 (by omega) hlen2 h1' h2'
      refine ⟨reachF, ?_, hlenF, hfinal⟩
      rw [outerLoop, dif_pos hs]
      simp only [Option.bind_eq_bind, Option.pure_def, hr, Option.some_bind]
      by_cases hz : reach.getD s0 0 = 0
      · rw [if_pos (by simpa using hz)]
        rw [if_pos (by simpa using hz)] at hbranch
        have hre : reach = reach2 := by simpa using hbranch
        rw [hre]
        exact hrunF
      · rw [if_neg (by simpa using hz)]
        rw [if_neg (by simpa using hz)] at hbranch
        rw [hbranch, Option.some_bind]
        exact hrunF
    · refine ⟨reach, ?_, hlen, ?_⟩
      · rw [outerLoop, dif_neg hs]
        rfl
      · intro k hk
        exact h1 k (by omega)

/-- The query is total on well-formed tries (given in-range symbols) and
computes the last-block partition count over the trie's word set. -/
theorem count_eq_fcB {N : Nat} (t : Trie N) (hwf : WFA N t.trie_entries)
    (word : List Nat) (hsym : ∀ c ∈ word, c < N) :
    t.count_all_word_arrangements word
      = some (fcB (fun u => inTrieB t u) word) := by
  have hset : setChecked (List.replicate (word.length + 1) 0) 0 1
      = some ((List.replicate (word.length + 1) 0).set 0 1) := by
    rw [setChecked, if_pos (by simp)]
  have hlen1 : ((List.replicate (word.length + 1) 0).set 0 1).length
      = word.length + 1 := by simp
  have hrepl : ∀ k, (List.replicate (word.length + 1) (0 : Nat)).getD k 0 = 0 := by
    intro k
    by_cases hk : k < word.length + 1
    · rw [List.getD_eq_getElem _ _ (by simpa using hk)]
      simp
    · rw [List.getD_eq_default _ _ (by simpa using Nat.le_of_not_lt hk)]
  have h1 : ∀ k, k ≤ 0 →
      ((List.replicate (word.length + 1) 0).set 0 1).getD k 0
        = fcB (fun u => inTrieB t u) (word.take k) := by
    intro k hk
    have hk0 : k = 0 := by omega
    subst hk0
    rw [getD_set_self' _ _ _ _ (by simp), List.take_zero, fcB_nil]
  have h2 : ∀ k, 0 < k → k ≤ word.length →
      ((List.replicate (word.length + 1) 0).set 0 1).getD k 0
        = ((List.range 0).map (fun s =>
            if inTrieB t ((word.take k).drop s) = true
            then fcB (fun u => inTrieB t u) (word.take s) else 0)).sum := by
    intro k hk1 hk2
    rw [getD_set_ne' _ _ _ _ _ (by omega), hrepl k]
    simp
  obtain ⟨reachF, hrun, hlenF, hfinal⟩ := outerLoop_spec t hwf word hsym
    word.length 0 ((List.replicate (word.length + 1) 0).set 0 1)
    (by omega) hlen1 h1 h2
  have hread : reachF[word.length]? = some (reachF.getD word.length 0) :=
    getElem?_eq_some_getD _ _ _ (by omega)
  rw [Trie.count_all_word_arrangements]
  simp only [Option.bind_eq_bind, Option.pure_def, hset, Option.some_bind, hrun,
    hread]
  rw [hfinal word.length le_rfl, List.take_length]

/-- A successfully built trie is well-formed and holds exactly the
pattern set. -/
theorem built_trie_props {N : Nat} (ps : List (List Nat)) (t : Trie N)
    (hps : ∀ p ∈ ps, ∀ c ∈ p, c < N)
    (hbuild : Trie.from_iter N ps = some t) :
    WFA N t.trie_entries ∧ ∀ w, inTrieB t w = decide (w ∈ ps) := by
  obtain ⟨t2, hrun2, hwf2, hchar2⟩ := from_iter_spec ps hps (N := N)
  rw [hbuild] at hrun2
  have heq : t = t2 := by
    exact Option.some.inj hrun2
  subst heq
  exact ⟨hwf2, hchar2⟩

/-- The query on a successfully built trie computes the brute-force
partition count of the pattern set. -/
theorem count_built_eq_brute {N : Nat} (ps : List (List Nat)) (t : Trie N)
    (hps : ∀ p ∈ ps, ∀ c ∈ p, c < N)
    (hbuild : Trie.from_iter N ps = some t) (word : List Nat)
    (hsym : ∀ c ∈ word, c < N) :
    t.count_all_word_arrangements word = some (brute_force_count ps word) := by
  obtain ⟨hwf, hchar⟩ := built_trie_props ps t hps hbuild
  rw [count_eq_fcB t hwf word hsym]
  have hB : (fun u => inTrieB t u) = (fun u => decide (u ∈ ps)) :=
    funext hchar
  rw [hB, fcB_eq_brute]

/-- The query on the empty word returns 1 on every trie value. -/
theorem count_nil {N : Nat} (t : Trie N) :
    t.count_all_word_arrangements [] = some 1 := by
  have hset : setChecked (List.replicate (List.length ([] : List Nat) + 1) 0) 0 1
      = some [1] := by
    rw [setChecked, if_pos (by simp)]
    rfl
  have hout : outerLoop t [] 0 [1] = some [1] := by
    rw [outerLoop, dif_neg (by simp)]
    rfl
  rw [Trie.count_all_word_arrangements]
  simp only [Option.bind_eq_bind, Option.pure_def, hset, Option.some_bind, hout]
  rfl

/-! Basic sum helpers. -/

theorem sum_map_range {M : Type} [AddCommMonoid M] (n : Nat) (f : Nat → M) :
    ((List.range n).map f).sum = ∑ i in Finset.range n, f i := by
  induction n with
  | zero => simp
  | succ n ih =>
    rw [List.range_succ, List.map_append, List.sum_append, Finset.sum_range_succ, ih]
    simp

/-! Lemmas about the sharding helper. -/

theorem length_shardStep {I : Type} (P : Nat) (A : List (List I)) (p : Nat × I) :
    (shardStep P A p).length = A.length := by
  simp [shardStep]

theorem foldl_shardStep {I : Type} (P : Nat) (hP : 0 < P) (L : List (Nat × I)) :
    ∀ A : List (List I), A.length = P →
      L.foldl (shardStep P) A = (List.range P).map (fun j =>
        A.getD j [] ++ (L.filter (fun p => p.1 % P = j)).map Prod.snd) := by
  induction L with
  | nil =>
    intro A hA
    simp only [List.foldl_nil, List.filter_nil, List.map_nil, List.append_nil]
    apply List.ext_getElem
    · simp [hA]
    · intro i h1 h2
      simp only [List.getElem_map, List.getElem_range]
      rw [List.getD_eq_getElem]
  | cons p L ih =>
    intro A hA
    rw [List.foldl_cons, ih (shardStep P A p) (by rw [length_shardStep, hA])]
    apply List.map_congr_left
    intro j hj
    rw [List.mem_range] at hj
    rw [List.filter_cons]
    by_cases hcase : p.1 % P = j
    · simp only [hcase, if_pos, List.map_cons, decide_eq_true_eq, if_true]
      have hlt : j < A.length := hA ▸ hj
      rw [show shardStep P A p = A.set j (A.getD j [] ++ [p.2]) by rw [shardStep, hcase]]
      rw [List.getD_eq_getElem _ _ (by simpa using hlt), List.getElem_set_self,
        List.getD_eq_getElem _ _ hlt, List.append_assoc, List.singleton_append]
    · simp only [hcase, decide_eq_true_eq, if_false]
      have hlt : j < A.length := hA ▸ hj
      rw [shardStep, List.getD_eq_getElem _ _ (by simpa using hlt),
        List.getElem_set_ne hcase, List.getD_eq_getElem _ _ hlt]

theorem shardInputs_eq_spec {I : Type} (P : Nat) (hP : 0 < P) (inputs : List I) :
    shardInputs P inputs = shardSpec P inputs := by
  rw [shardInputs, shardSpec, foldl_shardStep P hP _ _ (by simp)]
  apply List.map_congr_left
  intro j hj
  rw [List.getD_eq_getElem _ _ (by simpa using List.mem_range.mp hj)]
  simp

theorem length_shardSpec {I : Type} (P : Nat) (inputs : List I) :
    (shardSpec P inputs).length = P := by
  simp [shardSpec]

theorem sum_filter_mod {I : Type} {M : Type} [AddCommMonoid M] (P : Nat) (hP : 0 < P)
    (L : List (Nat × I)) (h : Nat × I → M) :
    ((List.range P).map (fun j =>
      ((L.filter (fun p => p.1 % P = j)).map h).sum)).sum = (L.map h).sum := by
  induction L with
  | nil => simp
  | cons p L ih =>
    rw [List.map_cons, List.sum_cons, ← ih, sum_map_range, sum_map_range]
    have hsplit : ∀ j ∈ Finset.range P,
        (((p :: L).filter (fun q => q.1 % P = j)).map h).sum =
          ((L.filter (fun q => q.1 % P = j)).map h).sum +
            (if p.1 % P = j then h p else 0) := by
      intro j _
      rw [List.filter_cons]
      by_cases hcase : p.1 % P = j
      · simp [hcase, add_comm]
      · simp [hcase]
    rw [Finset.sum_congr rfl hsplit, Finset.sum_add_distrib]
    have : (∑ j in Finset.range P, if p.1 % P = j then h p else 0) = h p := by
      rw [Finset.sum_ite_eq]
      simp [Nat.mod_lt _ hP]
    rw [this, add_comm]

end Utils

namespace Claims

open Utils

/-- Claim C2: for a partition-invariant (commutative/associative)
reduction — here the sum in an arbitrary additive commutative monoid —
combining the per-shard outputs of `shard_and_solve_concurrently`
yields the same result as the single-threaded reduction over the whole
unsharded input, for every shard count `P ≥ 1`, every finite input
sequence and every capture value. -/
theorem C2_shard_sum_roundtrip {I C M : Type} [AddCommMonoid M] (P : Nat)
    (hP : 0 < P) (inputs : List I) (capture : C) (g : C → I → M) :
    (shard_and_solve_concurrently P inputs capture
        (fun shard c => (shard.map (g c)).sum)).sum
      = (inputs.map (g capture)).sum := by
  rw [shard_and_solve_concurrently, shardInputs_eq_spec P hP inputs, shardSpec,
    List.map_map]
  have hfilter := sum_filter_mod P hP inputs.enum (fun p => g capture p.2)
  have henum : (inputs.enum.map (fun p => g capture p.2)).sum
      = (inputs.map (g capture)).sum := by
    rw [show (fun p : Nat × I => g capture p.2) = (g capture) ∘ Prod.snd from rfl,
      ← List.map_map, List.enum_map_snd]
  rw [← henum, ← hfilter]
  congr 1
  apply List.map_congr_left
  intro j _
  show (List.map (g capture)
      (List.map Prod.snd (List.filter (fun p => decide (p.1 % P = j)) inputs.enum))).sum = _
  rw [List.map_map]
  rfl

/-- Witness for C2 at a concrete instance. -/
theorem C2_shard_sum_roundtrip_witness :
    (shard_and_solve_concurrently 2 [1, 2, 3, 4, 5] 10
        (fun shard c => (shard.map (fun x => c * x)).sum)).sum
      = (([1, 2, 3, 4, 5] : List Nat).map (fun x => 10 * x)).sum :=
  C2_shard_sum_roundtrip 2 (by decide) [1, 2, 3, 4, 5] 10 (fun c x => c * x)

/-- Claim C3: for every finite input sequence and every capture value,
`shard_and_solve_concurrently` yields exactly `P` outputs, one per
shard; even when there are fewer items than shards, the reducer is
still invoked exactly once on each (possibly empty) shard, and no
output is dropped or duplicated: output `j` is exactly the reducer
applied to shard `j`. -/
theorem C3_shard_exactly_P_outputs {I C O : Type} (P : Nat) (hP : 0 < P)
    (inputs : List I) (capture : C) (f : List I → C → O) :
    (shard_and_solve_concurrently P inputs capture f).length = P ∧
    ∀ j, j < P → (shard_and_solve_concurrently P inputs capture f)[j]? =
      some (f ((shardSpec P inputs).getD j []) capture) := by
  constructor
  · rw [shard_and_solve_concurrently, List.length_map,
      shardInputs_eq_spec P hP inputs, length_shardSpec]
  · intro j hj
    have hjl : j < (shardSpec P inputs).length := by rw [length_shardSpec]; exact hj
    rw [shard_and_solve_concurrently, shardInputs_eq_spec P hP inputs,
      List.getElem?_map, List.getElem?_eq_getElem hjl,
      List.getD_eq_getElem _ _ hjl]
    rfl

/-- Witness for C3 at a concrete instance with fewer items than
shards. -/
theorem C3_shard_exactly_P_outputs_witness :
    (shard_and_solve_concurrently 3 [10] 0 (fun s c => s.length + c)).length = 3 :=
  (C3_shard_exactly_P_outputs 3 (by decide) [10] 0 (fun s c => s.length + c)).1

/-- Claim C4: shard assignment is round-robin and deterministic: the
shard buffers built by `shard_and_solve_concurrently` equal the
specification in which the item at index `i` is routed to shard
`i mod P` (determinism holds because the assignment is a pure function
of `P` and the input order), and each input item indeed appears in its
assigned shard. -/
theorem C4_round_robin_assignment {I : Type} (P : Nat) (hP : 0 < P)
    (inputs : List I) :
    shardInputs P inputs = shardSpec P inputs ∧
    ∀ i (hi : i < inputs.length),
      inputs.get ⟨i, hi⟩ ∈ (shardInputs P inputs).getD (i % P) [] := by
  refine ⟨shardInputs_eq_spec P hP inputs, ?_⟩
  intro i hi
  rw [shardInputs_eq_spec P hP inputs, shardSpec]
  have hm : i % P < P := Nat.mod_lt _ hP
  rw [List.getD_eq_getElem _ _ (by simpa using hm)]
  simp only [List.getElem_map, List.getElem_range]
  apply List.mem_map.mpr
  refine ⟨(i, inputs.get ⟨i, hi⟩), ?_, rfl⟩
  apply List.mem_filter.mpr
  refine ⟨?_, by simp⟩
  apply List.mk_mem_enum_iff_getElem?.mpr
  rw [List.getElem?_eq_getElem hi]
  rfl

/-- Witness for C4 at a concrete instance. -/
theorem C4_round_robin_assignment_witness :
    shardInputs 2 [5, 6, 7] = shardSpec 2 [5, 6, 7] :=
  (C4_round_robin_assignment 2 (by decide) [5, 6, 7]).1

/-- Claim C1: for every trie built from a pattern set over the dense
alphabet `[0, N)` and every target word over that alphabet,
`count_all_word_arrangements` returns exactly the number of ways to
partition the target into a concatenation of patterns from the set, as
computed by the reference brute-force recursive count. -/
theorem C1_count_refines_brute_force {N : Nat} (ps : List (List Nat))
    (t : Trie N) (hps : ∀ p ∈ ps, ∀ c ∈ p, c < N)
    (hbuild : Trie.from_iter N ps = some t) (word : List Nat)
    (hsym : ∀ c ∈ word, c < N) :
    t.count_all_word_arrangements word = some (brute_force_count ps word) :=
  count_built_eq_brute ps t hps hbuild word hsym

/-- Witness for C1 at a concrete instance. -/
theorem C1_count_refines_brute_force_witness :
    (Trie.from_iter 2 [[0], [1], [0, 1]]).bind
      (fun t => t.count_all_word_arrangements [0, 1])
      = some (brute_force_count [[0], [1], [0, 1]] [0, 1]) := by
  cases hbuild : Trie.from_iter 2 [[0], [1], [0, 1]] with
  | none => exact absurd hbuild (by decide)
  | some t =>
    rw [Option.some_bind]
    exact C1_count_refines_brute_force [[0], [1], [0, 1]] t (by decide) hbuild
      [0, 1] (by decide)

unseal innerLoop outerLoop in
/-- Claim C5: the worked examples. For the trie built from the stripe
patterns r, wr, b, g, bwu, rb, gb, br over the 5-symbol stripe
alphabet, the count for "brwrr" is 2 and for "bbrgwb" is 0; and for the
trie built from a, b, ab over a 2-symbol alphabet, the count for "ab"
is 2. -/
theorem C5_worked_examples :
    ((Trie.from_iter 5 (([[.red], [.white, .red], [.black], [.green],
        [.black, .white, .blue], [.red, .black], [.green, .black],
        [.black, .red]] : List (List Stripe)).map (List.map Stripe.index))).bind
      (fun t => t.count_all_word_arrangements
        (([.black, .red, .white, .red, .red] : List Stripe).map Stripe.index))
      = some 2) ∧
    ((Trie.from_iter 5 (([[.red], [.white, .red], [.black], [.green],
        [.black, .white, .blue], [.red, .black], [.green, .black],
        [.black, .red]] : List (List Stripe)).map (List.map Stripe.index))).bind
      (fun t => t.count_all_word_arrangements
        (([.black, .black, .red, .green, .white, .black] : List Stripe).map
          Stripe.index))
      = some 0) ∧
    ((Trie.from_iter 2 [[0], [1], [0, 1]]).bind
      (fun t => t.count_all_word_arrangements [0, 1]) = some 2) := by
  refine ⟨?_, ?_, ?_⟩ <;> decide

/-- Claim C6: for the trie built from an empty pattern set (which is
`Trie::default()`), the count of every nonempty target over the
alphabet is 0, and the count of the empty target is 1. -/
theorem C6_empty_pattern_set {N : Nat} (word : List Nat)
    (hsym : ∀ c ∈ word, c < N) (hne : word ≠ []) :
    Trie.from_iter N [] = some (Trie.default N) ∧
    (Trie.default N).count_all_word_arrangements word = some 0 ∧
    (Trie.default N).count_all_word_arrangements [] = some 1 := by
  refine ⟨rfl, ?_, count_nil _⟩
  rw [count_eq_fcB (Trie.default N) (wfa_default N) word hsym]
  have hzero : fcB (fun u => inTrieB (Trie.default N) u) word = 0 := by
    rw [fcB_ne _ word hne]
    have hterms : ∀ s ∈ List.range word.length,
        (if (fun u => inTrieB (Trie.default N) u) (word.drop s) = true
         then fcB (fun u => inTrieB (Trie.default N) u) (word.take s) else 0)
          = 0 := by
      intro s _
      rw [if_neg]
      show ¬ inTrieB (Trie.default N) (word.drop s) = true
      rw [inTrieB_default]
      simp
    rw [List.map_congr_left hterms]
    simp
  rw [hzero]

/-- Witness for C6 at a concrete instance. -/
theorem C6_empty_pattern_set_witness :
    (Trie.default 2).count_all_word_arrangements [0] = some 0 :=
  (C6_empty_pattern_set [0] (by decide) (by decide)).2.1

/-- Claim C7: trie construction is insensitive to pattern insertion
order and duplicate patterns: two pattern lists holding the same set of
patterns (which covers every permutation and every duplication) build
tries with equal counts on every target word. -/
theorem C7_order_and_duplicates_irrelevant {N : Nat} (ps₁ ps₂ : List (List Nat))
    (t₁ t₂ : Trie N) (hmem : ∀ p, p ∈ ps₁ ↔ p ∈ ps₂)
    (hps : ∀ p ∈ ps₁, ∀ c ∈ p, c < N)
    (h₁ : Trie.from_iter N ps₁ = some t₁)
    (h₂ : Trie.from_iter N ps₂ = some t₂)
    (word : List Nat) (hsym : ∀ c ∈ word, c < N) :
    t₁.count_all_word_arrangements word = t₂.count_all_word_arrangements word := by
  have hps₂ : ∀ p ∈ ps₂, ∀ c ∈ p, c < N := fun p hp => hps p ((hmem p).mpr hp)
  rw [count_built_eq_brute ps₁ t₁ hps h₁ word hsym,
    count_built_eq_brute ps₂ t₂ hps₂ h₂ word hsym]
  have hB : (fun u => decide (u ∈ ps₁)) = (fun u => decide (u ∈ ps₂)) :=
    funext fun u => by simp only [hmem u]
  rw [← fcB_eq_brute, ← fcB_eq_brute, hB]

/-- Witness for C7 at a concrete instance (a permutation with a
duplicate). -/
theorem C7_order_and_duplicates_irrelevant_witness :
    (Trie.from_iter 2 [[0], [1]]).bind
      (fun t => t.count_all_word_arrangements [0, 1])
      = (Trie.from_iter 2 [[1], [0], [0]]).bind
        (fun t => t.count_all_word_arrangements [0, 1]) := by
  cases hb1 : Trie.from_iter 2 [[0], [1]] with
  | none => exact absurd hb1 (by decide)
  | some t₁ =>
    cases hb2 : Trie.from_iter 2 [[1], [0], [0]] with
    | none => exact absurd hb2 (by decide)
    | some t₂ =>
      rw [Option.some_bind, Option.some_bind]
      refine C7_order_and_duplicates_irrelevant [[0], [1]] [[1], [0], [0]]
        t₁ t₂ ?_ (by decide) hb1 hb2 [0, 1] (by decide)
      intro p
      constructor
      · intro h
        rcases List.mem_cons.mp h with h | h
        · subst h
          simp
        · have : p = [1] := by simpa using h
          subst this
          simp
      · intro h
        rcases List.mem_cons.mp h with h | h
        · subst h
          simp
        · rcases List.mem_cons.mp h with h | h
          · subst h
            simp
          · have : p = [0] := by simpa using h
            subst this
            simp

/-- Claim C8: if the target word equals one of the patterns the trie
was built from, the count is at least 1 (stated via `getD`, which also
forces the query to succeed). -/
theorem C8_pattern_is_counted {N : Nat} (ps : List (List Nat)) (t : Trie N)
    (hps : ∀ p ∈ ps, ∀ c ∈ p, c < N)
    (hbuild : Trie.from_iter N ps = some t) (word : List Nat)
    (hsym : ∀ c ∈ word, c < N) (hmem : word ∈ ps) :
    1 ≤ (t.count_all_word_arrangements word).getD 0 := by
  rw [count_built_eq_brute ps t hps hbuild word hsym, Option.getD_some]
  by_cases hnil : word = []
  · subst hnil
    rw [brute_force_count]
    simp
  · rw [brute_eq_length_tilingsF ps word.length word le_rfl]
    have hin : [word] ∈ tilingsF (fun u => decide (u ∈ ps)) word := by
      apply (mem_tilingsF _ word.length word le_rfl [word]).mpr
      refine ⟨by simp, ?_⟩
      intro p hp
      have hpw : p = word := by simpa using hp
      subst hpw
      exact ⟨by simpa using hmem, hnil⟩
    exact List.length_pos_of_mem hin

/-- Witness for C8 at a concrete instance. -/
theorem C8_pattern_is_counted_witness :
    1 ≤ (((Trie.from_iter 2 [[0], [1]]).bind
      (fun t => t.count_all_word_arrangements [0])).getD 0) := by
  cases hbuild : Trie.from_iter 2 [[0], [1]] with
  | none => exact absurd hbuild (by decide)
  | some t =>
    rw [Option.some_bind]
    exact C8_pattern_is_counted [[0], [1]] t (by decide) hbuild [0]
      (by decide) (by decide)

/-- Claim C9: under the precondition that every pattern symbol and every
target symbol has index below the alphabet bound, trie construction and
query never panic: building the trie and then querying it yields a
value (every checked access, including the arena handles, is in
bounds). -/
theorem C9_no_panic {N : Nat} (ps : List (List Nat)) (word : List Nat)
    (hps : ∀ p ∈ ps, ∀ c ∈ p, c < N) (hsym : ∀ c ∈ word, c < N) :
    ((Trie.from_iter N ps).bind
      (fun t => t.count_all_word_arrangements word)).isSome = true := by
  obtain ⟨t, hrun, hwf, _⟩ := from_iter_spec ps hps (N := N)
  rw [hrun, Option.some_bind, count_eq_fcB t hwf word hsym]
  rfl

/-- Witness for C9 at a concrete instance. -/
theorem C9_no_panic_witness :
    ((Trie.from_iter 5 [[3], [0, 3], [2]]).bind
      (fun t => t.count_all_word_arrangements [2, 3])).isSome = true :=
  C9_no_panic [[3], [0, 3], [2]] [2, 3] (by decide) (by decide)

/-- Claim C10: the root's terminal flag is never consulted: building
with the empty pattern added leaves every count unchanged, and the
count of the empty target is 1 for every trie value. -/
theorem C10_root_terminal_never_consulted {N : Nat} (ps : List (List Nat))
    (t t2 : Trie N) (hps : ∀ p ∈ ps, ∀ c ∈ p, c < N)
    (h₁ : Trie.from_iter N ps = some t)
    (h₂ : Trie.from_iter N (ps ++ [[]]) = some t2)
    (word : List Nat) (hsym : ∀ c ∈ word, c < N) :
    t2.count_all_word_arrangements word = t.count_all_word_arrangements word ∧
    ∀ t0 : Trie N, t0.count_all_word_arrangements [] = some 1 := by
  refine ⟨?_, fun t0 => count_nil t0⟩
  have hps2 : ∀ p ∈ ps ++ [[]], ∀ c ∈ p, c < N := by
    intro p hp
    rcases List.mem_append.mp hp with h | h
    · exact hps p h
    · intro c hc
      have hpe : p = [] := by simpa using h
      subst hpe
      simp at hc
  rw [count_built_eq_brute ps t hps h₁ word hsym,
    count_built_eq_brute (ps ++ [[]]) t2 hps2 h₂ word hsym]
  rw [← fcB_eq_brute, ← fcB_eq_brute]
  apply congrArg
  apply fcB_congr
  intro u hu
  simp [List.mem_append, hu]

/-- Witness for C10 at a concrete instance. -/
theorem C10_root_terminal_never_consulted_witness :
    (Trie.from_iter 2 ([[0]] ++ [[]])).bind
      (fun t => t.count_all_word_arrangements [0, 0])
      = (Trie.from_iter 2 [[0]]).bind
        (fun t => t.count_all_word_arrangements [0, 0]) := by
  cases hb1 : Trie.from_iter 2 [[0]] with
  | none => exact absurd hb1 (by decide)
  | some t =>
    cases hb2 : Trie.from_iter 2 ([[0]] ++ [[]]) with
    | none => exact absurd hb2 (by decide)
    | some t2 =>
      rw [Option.some_bind, Option.some_bind]
      exact (C10_root_terminal_never_consulted [[0]] t t2 (by decide)
        hb1 hb2 [0, 0] (by decide)).1

end Claims
